import Mathlib

/-!
Verification of the core of the cstl C library (type-erased containers,
iterator protocol, generic algorithms and pooled allocators).

The C code is shallowly embedded: a sort range `[begin, end)` is modelled as
the `List` of element values it contains, iterator positions become
range-relative indices, pool state becomes an explicit structure, and the
underlying allocator is modelled by an explicit success oracle together with
a counter producing fresh addresses.  All definitions are translated from
the sources in `src/cstl/src` (`algo.c`, `common.c`, `iterator.c`,
`vector.c`); theorems settle the specification claims about them.
-/

namespace Cstl

/-- Error codes from `include/cstl/common.h` (`error_code_t`). -/
inductive ErrorCode where
  | CSTL_OK
  | CSTL_ERROR_NULL_POINTER
  | CSTL_ERROR_OUT_OF_MEMORY
  | CSTL_ERROR_INVALID_INDEX
  | CSTL_ERROR_CONTAINER_EMPTY
  | CSTL_ERROR_CONTAINER_FULL
  | CSTL_ERROR_ITERATOR_END
  | CSTL_ERROR_NOT_FOUND
  | CSTL_ERROR_ALREADY_EXISTS
  | CSTL_ERROR_INVALID_ARGUMENT
  | CSTL_ERROR_UNKNOWN
  deriving DecidableEq, Repr

export ErrorCode (CSTL_OK CSTL_ERROR_NULL_POINTER CSTL_ERROR_OUT_OF_MEMORY
  CSTL_ERROR_INVALID_INDEX CSTL_ERROR_CONTAINER_EMPTY CSTL_ERROR_CONTAINER_FULL
  CSTL_ERROR_ITERATOR_END CSTL_ERROR_NOT_FOUND CSTL_ERROR_ALREADY_EXISTS
  CSTL_ERROR_INVALID_ARGUMENT CSTL_ERROR_UNKNOWN)

variable {α : Type _}

/-! ### Three-way comparators (`compare_fn_t`)

A comparator returns a negative / zero / positive integer.  The laws below
are the ones a lawful three-way comparator satisfies; the concrete integer
comparator used in the witnesses satisfies all of them. -/

/-- Totality: for any two elements, one compares `≤ 0` against the other. -/
def CmpTotal (cmp : α → α → Int) : Prop := ∀ a b, cmp a b ≤ 0 ∨ cmp b a ≤ 0

/-- Transitivity of the non-positive comparison. -/
def CmpTrans (cmp : α → α → Int) : Prop :=
  ∀ a b c, cmp a b ≤ 0 → cmp b c ≤ 0 → cmp a c ≤ 0

/-- A strictly positive comparison flips to a strictly negative one. -/
def CmpFlip (cmp : α → α → Int) : Prop := ∀ a b, 0 < cmp a b → cmp b a < 0

/-- A strict comparison composed with a non-positive one stays strict. -/
def CmpTransLt (cmp : α → α → Int) : Prop :=
  ∀ a b c, cmp a b < 0 → cmp b c ≤ 0 → cmp a c < 0

/-- A non-positive comparison composed with a strict one stays strict. -/
def CmpTransLeLt (cmp : α → α → Int) : Prop :=
  ∀ a b c, cmp a b ≤ 0 → cmp b c < 0 → cmp a c < 0

/-- A range is non-decreasing with respect to the comparator. -/
def SortedLe (cmp : α → α → Int) (l : List α) : Prop :=
  List.Pairwise (fun a b => cmp a b ≤ 0) l

/-- The reference integer comparator used in witnesses. -/
def intCmp (a b : Int) : Int := a - b

theorem intCmp_total : CmpTotal intCmp := by
  intro a b; simp only [intCmp]; omega

theorem intCmp_trans : CmpTrans intCmp := by
  intro a b c h1 h2; simp only [intCmp] at *; omega

theorem intCmp_flip : CmpFlip intCmp := by
  intro a b h; simp only [intCmp] at *; omega

theorem intCmp_translt : CmpTransLt intCmp := by
  intro a b c h1 h2; simp only [intCmp] at *; omega

theorem intCmp_translelt : CmpTransLeLt intCmp := by
  intro a b c h1 h2; simp only [intCmp] at *; omega

/-- Self-comparison is non-positive for any comparator with the flip law. -/
theorem cmp_self_nonpos {α : Type _} {cmp : α → α → Int} (hflip : CmpFlip cmp) (a : α) :
    cmp a a ≤ 0 := by
  by_contra h
  have := hflip a a (by omega)
  omega

theorem cmpTotal_refl {cmp : α → α → Int} (h : CmpTotal cmp) (a : α) :
    cmp a a ≤ 0 := by
  rcases h a a with h' | h' <;> exact h'

/-! ### Index-level list operations

The C algorithms manipulate the range through iterators; an iterator over
the range is a range-relative index, reading an element is `nth`, writing
through a dereferenced iterator is `List.set`, and `algo_swap` on two
dereferenced iterators (with the temporary-buffer allocation succeeding) is
`lswap`. -/

variable [Inhabited α]

/-- Element at index `i` (the value an iterator at position `i` dereferences to). -/
def nth (l : List α) (i : Nat) : α := l.getD i default

theorem nth_eq_getElem (l : List α) (i : Nat) (h : i < l.length) :
    nth l i = l[i] := by
  simp [nth, List.getD_eq_getElem?_getD, List.getElem?_eq_getElem h]

theorem nth_set_self (l : List α) (i : Nat) (v : α) (h : i < l.length) :
    nth (l.set i v) i = v := by
  simp [nth, List.getD_eq_getElem?_getD, List.getElem?_set_self' , h]

theorem nth_set_ne (l : List α) (i j : Nat) (v : α) (h : i ≠ j) :
    nth (l.set i v) j = nth l j := by
  simp [nth, List.getD_eq_getElem?_getD, List.getElem?_set_ne h]

/-- `algo_swap` on the elements at indices `i` and `j` (algo.c:1813,
with the temporary allocation succeeding): each position receives the
other's old value. -/
def lswap (l : List α) (i j : Nat) : List α :=
  (l.set i (nth l j)).set j (nth l i)

theorem length_lswap (l : List α) (i j : Nat) :
    (lswap l i j).length = l.length := by
  simp [lswap]

theorem nth_lswap_left (l : List α) (i j : Nat) (hi : i < l.length) :
    nth (lswap l i j) i = nth l j := by
  rcases eq_or_ne j i with h | h
  · subst h
    rw [lswap, nth_set_self _ _ _ (by simpa using hi)]
  · rw [lswap, nth_set_ne _ _ _ _ h, nth_set_self _ _ _ hi]

theorem nth_lswap_right (l : List α) (i j : Nat) (hj : j < l.length) :
    nth (lswap l i j) j = nth l i := by
  rw [lswap, nth_set_self _ _ _ (by simpa using hj)]

theorem nth_lswap_other (l : List α) (i j k : Nat) (hik : k ≠ i) (hjk : k ≠ j) :
    nth (lswap l i j) k = nth l k := by
  rw [lswap, nth_set_ne _ _ _ _ (Ne.symm hjk), nth_set_ne _ _ _ _ (Ne.symm hik)]

theorem lswap_perm (l : List α) (i j : Nat) (hi : i < l.length) (hj : j < l.length) :
    (lswap l i j).Perm l := by
  classical
  rw [List.perm_iff_count]
  intro a
  have hj' : j < (l.set i (nth l j)).length := by simpa using hj
  rw [lswap, List.count_set _ _ _ _ hj', List.count_set _ _ _ _ hi]
  have hgi : (l.set i (nth l j))[j] = nth (l.set i (nth l j)) j := by
    rw [nth_eq_getElem _ _ hj']
  rw [hgi]
  have hcount_i : (if (l[i] == a) = true then 1 else 0) ≤ List.count a l := by
    split
    · next hh =>
      have : l[i] = a := by simpa using hh
      have hmem : a ∈ l := this ▸ List.getElem_mem hi
      simpa using List.count_pos_iff.mpr hmem
    · exact Nat.zero_le _
  rcases eq_or_ne i j with h | h
  · subst h
    rw [nth_set_self _ _ _ hi]
    have hni : nth l i = l[i] := nth_eq_getElem _ _ hi
    rw [hni]
    by_cases hb : (l[i] == a) = true <;>
      simp only [hb, if_true, if_false, Bool.not_eq_true] at hcount_i ⊢ <;> omega
  · rw [nth_set_ne _ _ _ _ h]
    have hni : nth l i = l[i] := nth_eq_getElem _ _ hi
    have hnj : nth l j = l[j] := nth_eq_getElem _ _ hj
    rw [hni, hnj]
    have hcount_j : (if (l[j] == a) = true then 1 else 0) ≤ List.count a l := by
      split
      · next hh =>
        have : l[j] = a := by simpa using hh
        have hmem : a ∈ l := this ▸ List.getElem_mem hj
        simpa using List.count_pos_iff.mpr hmem
      · exact Nat.zero_le _
    by_cases hb : (l[i] == a) = true <;> by_cases hb' : (l[j] == a) = true <;>
      simp only [hb, hb', if_true, if_false, Bool.not_eq_true] at hcount_i hcount_j ⊢ <;> omega

/-! ### Quicksort (`quick_sort_partition`, `quick_sort_impl`, algo.c:112-277)

`swapOk` records whether the temporary-buffer allocation inside `algo_swap`
succeeds; when it fails `algo_swap` silently leaves both elements unchanged
(algo.c:1820-1822), so the partition loop still advances `i` and `j` but
moves nothing. -/

/-- The Lomuto partition walk of `quick_sort_partition` (algo.c:148-164):
`j` runs from `begin` up to `last` (the pivot position, exclusive); an
element comparing `≤ 0` against the saved pivot value is swapped down to
position `i`, which then advances. -/
def partitionLoop (swapOk : Bool) (cmp : α → α → Int) (pivot : α)
    (l : List α) (i j last : Nat) : List α × Nat :=
  if j < last then
    if cmp (nth l j) pivot ≤ 0 then
      partitionLoop swapOk cmp pivot (if swapOk then lswap l i j else l) (i+1) (j+1) last
    else
      partitionLoop swapOk cmp pivot l i (j+1) last
  else (l, i)
termination_by last - j

theorem partitionLoop_length (swapOk : Bool) (cmp : α → α → Int) (pivot : α)
    (l : List α) (i j last : Nat) :
    (partitionLoop swapOk cmp pivot l i j last).1.length = l.length := by
  generalize hm : last - j = m
  induction m generalizing l i j with
  | zero =>
    rw [partitionLoop]
    have : ¬ j < last := by omega
    simp [this]
  | succ m IH =>
    rw [partitionLoop]
    by_cases hjlt : j < last
    · simp only [if_pos hjlt]
      split
      · rw [IH _ _ _ (by omega)]
        split <;> simp [length_lswap]
      · exact IH _ _ _ (by omega)
    · simp [hjlt]

theorem partitionLoop_snd_le (swapOk : Bool) (cmp : α → α → Int) (pivot : α)
    (l : List α) (i j last : Nat) (hij : i ≤ j) (hjl : j ≤ last) :
    i ≤ (partitionLoop swapOk cmp pivot l i j last).2 ∧
      (partitionLoop swapOk cmp pivot l i j last).2 ≤ last := by
  generalize hm : last - j = m
  induction m generalizing l i j with
  | zero =>
    rw [partitionLoop]
    have : ¬ j < last := by omega
    simp [this]
    omega
  | succ m IH =>
    rw [partitionLoop]
    by_cases hjlt : j < last
    · simp only [if_pos hjlt]
      split
      · have h := IH (if swapOk then lswap l i j else l) (i+1) (j+1)
          (by omega) (by omega) (by omega)
        exact ⟨by omega, h.2⟩
      · exact IH l i (j+1) (by omega) (by omega) (by omega)
    · simp [hjlt]
      omega

/-- `quick_sort_partition` (algo.c:112-189) on a range of values: if the
range has at most one element the pivot iterator is just `begin`
(algo.c:120-127); otherwise the value of the last element is saved as the
pivot, the Lomuto walk runs over `[begin, last)`, and finally the element
at `i` is swapped with the pivot position `last` (algo.c:175-178). -/
def quick_sort_partition (swapOk : Bool) (cmp : α → α → Int) (l : List α) :
    List α × Nat :=
  if l.length ≤ 1 then (l, 0)
  else
    let last := l.length - 1
    let pivot := nth l last
    let r := partitionLoop swapOk cmp pivot l 0 0 last
    ((if swapOk then lswap r.1 r.2 last else r.1), r.2)

theorem quick_sort_partition_length (swapOk : Bool) (cmp : α → α → Int)
    (l : List α) : (quick_sort_partition swapOk cmp l).1.length = l.length := by
  rw [quick_sort_partition]
  split
  · rfl
  · simp only
    split
    · rw [length_lswap, partitionLoop_length]
    · rw [partitionLoop_length]

theorem quick_sort_partition_snd_lt (swapOk : Bool) (cmp : α → α → Int)
    (l : List α) (h : ¬ l.length ≤ 1) :
    (quick_sort_partition swapOk cmp l).2 < l.length := by
  rw [quick_sort_partition]
  simp only [if_neg h]
  have := partitionLoop_snd_le swapOk cmp (nth l (l.length - 1)) l 0 0
    (l.length - 1) (by omega) (by omega)
  omega

/-- `quick_sort_impl` (algo.c:200-277): ranges of size ≤ 1 are left alone;
otherwise partition, then recursively sort `[begin, pivot)` and
`[pivot+1, end)` in place.  The element at the pivot index is untouched by
the recursive calls. -/
def quick_sort_impl (swapOk : Bool) (cmp : α → α → Int) (l : List α) : List α :=
  if h : l.length ≤ 1 then l
  else
    quick_sort_impl swapOk cmp
        ((quick_sort_partition swapOk cmp l).1.take
          (quick_sort_partition swapOk cmp l).2) ++
      nth (quick_sort_partition swapOk cmp l).1 (quick_sort_partition swapOk cmp l).2 ::
      quick_sort_impl swapOk cmp
        ((quick_sort_partition swapOk cmp l).1.drop
          ((quick_sort_partition swapOk cmp l).2 + 1))
termination_by l.length
decreasing_by
  · have hlen := quick_sort_partition_length swapOk cmp l
    have hp := quick_sort_partition_snd_lt swapOk cmp l h
    simp only [List.length_take]
    omega
  · have hlen := quick_sort_partition_length swapOk cmp l
    simp only [List.length_drop]
    omega

theorem partitionLoop_spec (cmp : α → α → Int) (pivot : α) :
    ∀ (m : Nat) (l : List α) (i j last : Nat), last - j = m →
    last < l.length → i ≤ j → j ≤ last →
    (∀ k, k < i → cmp (nth l k) pivot ≤ 0) →
    (∀ k, i ≤ k → k < j → 0 < cmp (nth l k) pivot) →
    (partitionLoop true cmp pivot l i j last).1.Perm l ∧
    (∀ k, k < (partitionLoop true cmp pivot l i j last).2 →
      cmp (nth (partitionLoop true cmp pivot l i j last).1 k) pivot ≤ 0) ∧
    (∀ k, (partitionLoop true cmp pivot l i j last).2 ≤ k → k < last →
      0 < cmp (nth (partitionLoop true cmp pivot l i j last).1 k) pivot) ∧
    (∀ k, last ≤ k →
      nth (partitionLoop true cmp pivot l i j last).1 k = nth l k) := by
  intro m
  induction m with
  | zero =>
    intro l i j last hm hlast hij hjl hlow hhigh
    have hj : ¬ j < last := by omega
    have hjeq : j = last := by omega
    rw [partitionLoop]
    simp only [if_neg hj]
    refine ⟨List.Perm.refl l, hlow, ?_, by intro k _; trivial⟩
    intro k hik hkl
    exact hhigh k hik (by omega)
  | succ m IH =>
    intro l i j last hm hlast hij hjl hlow hhigh
    have hjlt : j < last := by omega
    have hi_lt : i < l.length := by omega
    have hj_lt : j < l.length := by omega
    rw [partitionLoop]
    simp only [if_pos hjlt, if_true]
    by_cases hcj : cmp (nth l j) pivot ≤ 0
    · simp only [if_pos hcj]
      have hIH := IH (lswap l i j) (i+1) (j+1) last (by omega)
        (by rw [length_lswap]; omega) (by omega) (by omega)
        (by
          intro k hk
          rcases Nat.lt_or_ge k i with hki | hki
          · rw [nth_lswap_other l i j k (by omega) (by omega)]
            exact hlow k hki
          · have hki' : k = i := by omega
            rw [hki', nth_lswap_left l i j hi_lt]
            exact hcj)
        (by
          intro k hk1 hk2
          rcases eq_or_ne k j with hkj | hkj
          · rw [hkj, nth_lswap_right l i j hj_lt]
            exact hhigh i (le_refl i) (by omega)
          · rw [nth_lswap_other l i j k (by omega) (by omega)]
            exact hhigh k (by omega) (by omega))
      refine ⟨hIH.1.trans (lswap_perm l i j hi_lt hj_lt), hIH.2.1, hIH.2.2.1, ?_⟩
      intro k hk
      rw [hIH.2.2.2 k hk, nth_lswap_other l i j k (by omega) (by omega)]
    · simp only [if_neg hcj]
      have hcj' : 0 < cmp (nth l j) pivot := not_le.mp hcj
      exact IH l i (j+1) last (by omega) hlast (by omega) (by omega) hlow
        (by
          intro k hk1 hk2
          rcases eq_or_ne k j with hkj | hkj
          · rw [hkj]; exact hcj'
          · exact hhigh k hk1 (by omega))

theorem quick_sort_partition_spec (cmp : α → α → Int) (l : List α)
    (h2 : ¬ l.length ≤ 1) :
    (quick_sort_partition true cmp l).1.Perm l ∧
    (∀ k, k < (quick_sort_partition true cmp l).2 →
      cmp (nth (quick_sort_partition true cmp l).1 k)
        (nth (quick_sort_partition true cmp l).1 (quick_sort_partition true cmp l).2) ≤ 0) ∧
    (∀ k, (quick_sort_partition true cmp l).2 < k → k < l.length →
      0 < cmp (nth (quick_sort_partition true cmp l).1 k)
        (nth (quick_sort_partition true cmp l).1 (quick_sort_partition true cmp l).2)) := by
  have hlen2 : 2 ≤ l.length := by omega
  set last := l.length - 1 with hlastdef
  have hlast_lt : last < l.length := by omega
  set pivot := nth l last with hpivotdef
  have hloop := partitionLoop_spec cmp pivot last l 0 0 last rfl hlast_lt
    (le_refl 0) (by omega) (by intro k hk; omega) (by intro k hk1 hk2; omega)
  have hbounds := partitionLoop_snd_le true cmp pivot l 0 0 last (le_refl 0) (by omega)
  have hlooplen := partitionLoop_length true cmp pivot l 0 0 last
  set r := partitionLoop true cmp pivot l 0 0 last with hrdef
  have hr2_le : r.2 ≤ last := hbounds.2
  have hr2_lt : r.2 < l.length := by omega
  have hr2_lt' : r.2 < r.1.length := by omega
  have hlast_lt' : last < r.1.length := by omega
  have hq : quick_sort_partition true cmp l = (lswap r.1 r.2 last, r.2) := by
    rw [quick_sort_partition, if_neg h2]
    rfl
  rw [hq]
  simp only
  -- the value at the final pivot position is the saved pivot value
  have hpiv_at : nth (lswap r.1 r.2 last) r.2 = pivot := by
    rw [nth_lswap_left r.1 r.2 last hr2_lt', hloop.2.2.2 last (le_refl last)]
  rw [hpiv_at]
  refine ⟨(lswap_perm r.1 r.2 last hr2_lt' hlast_lt').trans hloop.1, ?_, ?_⟩
  · intro k hk
    rw [nth_lswap_other r.1 r.2 last k (by omega) (by omega)]
    exact hloop.2.1 k hk
  · intro k hk1 hk2
    rcases eq_or_ne k last with hkl | hkl
    · subst hkl
      rw [nth_lswap_right r.1 r.2 last hlast_lt']
      exact hloop.2.2.1 r.2 (le_refl _) (by omega)
    · rw [nth_lswap_other r.1 r.2 last k (by omega) hkl]
      exact hloop.2.2.1 k (by omega) (by omega)

theorem quick_sort_impl_perm (cmp : α → α → Int) (l : List α) :
    (quick_sort_impl true cmp l).Perm l := by
  generalize hn : l.length = n
  induction n using Nat.strong_induction_on generalizing l with
  | _ n IH =>
    rw [quick_sort_impl]
    by_cases h1 : l.length ≤ 1
    · simp [h1]
    · simp only [dif_neg h1]
      set r := quick_sort_partition true cmp l with hrdef
      have hlen : r.1.length = l.length := quick_sort_partition_length true cmp l
      have hp : r.2 < l.length := quick_sort_partition_snd_lt true cmp l h1
      have hperm : r.1.Perm l := (quick_sort_partition_spec cmp l h1).1
      have hpl : r.2 < r.1.length := by omega
      have htake : (quick_sort_impl true cmp (r.1.take r.2)).Perm (r.1.take r.2) :=
        IH (r.1.take r.2).length (by simp [List.length_take]; omega) _ rfl
      have hdrop : (quick_sort_impl true cmp (r.1.drop (r.2+1))).Perm (r.1.drop (r.2+1)) :=
        IH (r.1.drop (r.2+1)).length (by simp [List.length_drop]; omega) _ rfl
      have hnth : nth r.1 r.2 = r.1[r.2] := nth_eq_getElem r.1 r.2 hpl
      have hsplit : r.1.take r.2 ++ nth r.1 r.2 :: r.1.drop (r.2+1) = r.1 := by
        rw [hnth, ← List.drop_eq_getElem_cons hpl, List.take_append_drop]
      have hstep := List.Perm.append htake (List.Perm.cons (nth r.1 r.2) hdrop)
      rw [hsplit] at hstep
      exact hstep.trans hperm

theorem quick_sort_impl_sorted (cmp : α → α → Int)
    (htot : CmpTotal cmp) (htrans : CmpTrans cmp) (l : List α) :
    SortedLe cmp (quick_sort_impl true cmp l) := by
  generalize hn : l.length = n
  induction n using Nat.strong_induction_on generalizing l with
  | _ n IH =>
    rw [quick_sort_impl]
    by_cases h1 : l.length ≤ 1
    · simp only [dif_pos h1]
      subst hn
      match l, h1 with
      | [], _ => exact List.Pairwise.nil
      | [a], _ => exact List.pairwise_singleton _ a
    · simp only [dif_neg h1]
      set r := quick_sort_partition true cmp l with hrdef
      have hlen : r.1.length = l.length := quick_sort_partition_length true cmp l
      have hp : r.2 < l.length := quick_sort_partition_snd_lt true cmp l h1
      have hpl : r.2 < r.1.length := by omega
      have hspec := quick_sort_partition_spec cmp l h1
      rw [← hrdef] at hspec
      have hsortL : SortedLe cmp (quick_sort_impl true cmp (r.1.take r.2)) :=
        IH (r.1.take r.2).length (by simp [List.length_take]; omega) _ rfl
      have hsortR : SortedLe cmp (quick_sort_impl true cmp (r.1.drop (r.2+1))) :=
        IH (r.1.drop (r.2+1)).length (by simp [List.length_drop]; omega) _ rfl
      -- elements of the left part compare ≤ 0 against the pivot value
      have hmemL : ∀ a ∈ r.1.take r.2, cmp a (nth r.1 r.2) ≤ 0 := by
        intro a ha
        rcases List.mem_iff_getElem.mp ha with ⟨k, hk, hka⟩
        rw [List.length_take] at hk
        have hk2 : k < r.2 := by omega
        have hkk : k < r.1.length := by omega
        have hbk : k < (r.1.take r.2).length := by
          rw [List.length_take]; omega
        have hget : (r.1.take r.2)[k] = r.1[k] :=
          List.getElem_take r.1
        rw [hget] at hka
        rw [← hka, ← nth_eq_getElem r.1 k hkk]
        exact hspec.2.1 k hk2
      -- elements of the right part compare > 0 against the pivot value
      have hmemR : ∀ a ∈ r.1.drop (r.2+1), 0 < cmp a (nth r.1 r.2) := by
        intro a ha
        rcases List.mem_iff_getElem.mp ha with ⟨k, hk, hka⟩
        rw [List.length_drop] at hk
        have hkk : r.2 + 1 + k < r.1.length := by omega
        have hbk : k < (r.1.drop (r.2+1)).length := by
          rw [List.length_drop]; omega
        have hget : (r.1.drop (r.2+1))[k] = r.1[r.2+1+k] := List.getElem_drop r.1
        rw [hget] at hka
        rw [← hka, ← nth_eq_getElem r.1 (r.2+1+k) hkk]
        exact hspec.2.2 (r.2+1+k) (by omega) (by omega)
      have hpivR : ∀ a ∈ r.1.drop (r.2+1), cmp (nth r.1 r.2) a ≤ 0 := by
        intro a ha
        rcases htot (nth r.1 r.2) a with h | h
        · exact h
        · exact absurd h (not_le.mpr (hmemR a ha))
      rw [SortedLe, List.pairwise_append]
      refine ⟨hsortL, ?_, ?_⟩
      · rw [List.pairwise_cons]
        refine ⟨?_, hsortR⟩
        intro a ha
        exact hpivR a ((quick_sort_impl_perm cmp _).mem_iff.mp ha)
      · intro a ha b hb
        have haL : cmp a (nth r.1 r.2) ≤ 0 :=
          hmemL a ((quick_sort_impl_perm cmp _).mem_iff.mp ha)
        rcases List.mem_cons.mp hb with hb | hb
        · subst hb; exact haL
        · exact htrans a (nth r.1 r.2) b haL
            (hpivR b ((quick_sort_impl_perm cmp _).mem_iff.mp hb))

/-! ### Merge sort (`merge_sort_merge`, `merge_sort_impl`, algo.c:289-455)

`merge_sort_merge` first copies the two halves `[begin, mid)` and
`[mid, end)` into temporary buffers, then writes back into the range by
repeatedly comparing the buffer heads; a tie (`compare(...) <= 0`,
algo.c:353) takes the left buffer's element.  On the value sequences this
is exactly the functional head-merge below (the writes go back
sequentially from `begin`, followed by the leftover-copy loops,
algo.c:369-385). -/

/-- The write-back merge of `merge_sort_merge` on the two buffered halves. -/
def merge_sort_merge (cmp : α → α → Int) : List α → List α → List α
  | [], r => r
  | a :: l, [] => a :: l
  | a :: l, b :: r =>
    if cmp a b ≤ 0 then a :: merge_sort_merge cmp l (b :: r)
    else b :: merge_sort_merge cmp (a :: l) r
termination_by l r => l.length + r.length

/-- `merge_sort_impl` (algo.c:403-455): a range of size ≤ 1 is left alone;
otherwise the midpoint is found by counting `size / 2` positions
(algo.c:426-433), both halves are sorted recursively and then merged. -/
def merge_sort_impl (cmp : α → α → Int) (l : List α) : List α :=
  if l.length ≤ 1 then l
  else
    merge_sort_merge cmp (merge_sort_impl cmp (l.take (l.length / 2)))
      (merge_sort_impl cmp (l.drop (l.length / 2)))
termination_by l.length
decreasing_by
  · simp only [List.length_take]
    omega
  · simp only [List.length_drop]
    omega

theorem merge_sort_merge_perm (cmp : α → α → Int) (l r : List α) :
    (merge_sort_merge cmp l r).Perm (l ++ r) := by
  generalize hm : l.length + r.length = m
  induction m using Nat.strong_induction_on generalizing l r with
  | _ m IH =>
    match l, r with
    | [], r => rw [merge_sort_merge]; simp
    | a :: l, [] => rw [merge_sort_merge]; simp
    | a :: l, b :: r =>
      rw [merge_sort_merge]
      split
      · have h := IH (l.length + (b :: r).length) (by simp at hm ⊢; omega) l (b :: r) rfl
        simpa using h.cons a
      · have h := IH ((a :: l).length + r.length) (by simp at hm ⊢; omega) (a :: l) r rfl
        exact (h.cons b).trans List.perm_middle.symm

theorem merge_sort_merge_sorted (cmp : α → α → Int)
    (htot : CmpTotal cmp) (htrans : CmpTrans cmp) (l r : List α)
    (hl : SortedLe cmp l) (hr : SortedLe cmp r) :
    SortedLe cmp (merge_sort_merge cmp l r) := by
  generalize hm : l.length + r.length = m
  induction m using Nat.strong_induction_on generalizing l r with
  | _ m IH =>
    match l, r with
    | [], r => rw [merge_sort_merge]; exact hr
    | a :: l, [] => rw [merge_sort_merge]; exact hl
    | a :: l, b :: r =>
      rw [merge_sort_merge]
      rw [SortedLe, List.pairwise_cons] at hl hr
      split
      · next hab =>
        have hIH := IH (l.length + (b :: r).length) (by simp at hm ⊢; omega) l (b :: r)
          hl.2 (List.pairwise_cons.mpr hr) rfl
        rw [SortedLe, List.pairwise_cons]
        refine ⟨?_, hIH⟩
        intro x hx
        have hx' : x ∈ l ++ b :: r := (merge_sort_merge_perm cmp l (b :: r)).mem_iff.mp hx
        rcases List.mem_append.mp hx' with hxl | hxbr
        · exact hl.1 x hxl
        · rcases List.mem_cons.mp hxbr with hxb | hxr
          · rw [hxb]; exact hab
          · exact htrans a b x hab (hr.1 x hxr)
      · next hab =>
        have hba : cmp b a ≤ 0 := by
          rcases htot b a with h | h
          · exact h
          · exact absurd h hab
        have hIH := IH ((a :: l).length + r.length) (by simp at hm ⊢; omega) (a :: l) r
          (List.pairwise_cons.mpr hl) hr.2 rfl
        rw [SortedLe, List.pairwise_cons]
        refine ⟨?_, hIH⟩
        intro x hx
        have hx' : x ∈ (a :: l) ++ r := (merge_sort_merge_perm cmp (a :: l) r).mem_iff.mp hx
        rcases List.mem_append.mp hx' with hxal | hxr
        · rcases List.mem_cons.mp hxal with hxa | hxl
          · rw [hxa]; exact hba
          · exact htrans b a x hba (hl.1 x hxl)
        · exact hr.1 x hxr

theorem merge_sort_impl_perm (cmp : α → α → Int) (l : List α) :
    (merge_sort_impl cmp l).Perm l := by
  generalize hn : l.length = n
  induction n using Nat.strong_induction_on generalizing l with
  | _ n IH =>
    rw [merge_sort_impl]
    by_cases h1 : l.length ≤ 1
    · simp [h1]
    · simp only [if_neg h1]
      have htake := IH (l.take (l.length / 2)).length
        (by simp [List.length_take]; omega) _ rfl
      have hdrop := IH (l.drop (l.length / 2)).length
        (by simp [List.length_drop]; omega) _ rfl
      have hm := merge_sort_merge_perm cmp (merge_sort_impl cmp (l.take (l.length / 2)))
        (merge_sort_impl cmp (l.drop (l.length / 2)))
      have hsplit : l.take (l.length / 2) ++ l.drop (l.length / 2) = l :=
        List.take_append_drop _ l
      have happ := List.Perm.append htake hdrop
      rw [hsplit] at happ
      exact hm.trans happ

theorem merge_sort_impl_sorted (cmp : α → α → Int)
    (htot : CmpTotal cmp) (htrans : CmpTrans cmp) (l : List α) :
    SortedLe cmp (merge_sort_impl cmp l) := by
  generalize hn : l.length = n
  induction n using Nat.strong_induction_on generalizing l with
  | _ n IH =>
    rw [merge_sort_impl]
    by_cases h1 : l.length ≤ 1
    · simp only [if_pos h1]
      subst hn
      match l, h1 with
      | [], _ => exact List.Pairwise.nil
      | [a], _ => exact List.pairwise_singleton _ a
    · simp only [if_neg h1]
      exact merge_sort_merge_sorted cmp htot htrans _ _
        (IH (l.take (l.length / 2)).length (by simp [List.length_take]; omega) _ rfl)
        (IH (l.drop (l.length / 2)).length (by simp [List.length_drop]; omega) _ rfl)

/-! ### Stability

Stability is stated on key-tag pairs: the tag records the element's
original position in the range, the comparator only looks at the key, so a
stable sort must keep tags increasing within every class of equal keys. -/

/-- A comparator on key-tag pairs that ignores the tag. -/
def tagCmp (cmp : α → α → Int) (a b : α × Nat) : Int := cmp a.1 b.1

/-- Sorted, and ties keep their original (tag) order. -/
def StabSorted (cmp : α → α → Int) (l : List (α × Nat)) : Prop :=
  List.Pairwise (fun a b => cmp a.1 b.1 ≤ 0 ∧ (cmp a.1 b.1 = 0 → a.2 < b.2)) l

/-- Elements with equal keys appear in increasing original-position order. -/
def StableOrd (cmp : α → α → Int) (l : List (α × Nat)) : Prop :=
  List.Pairwise (fun a b => cmp a.1 b.1 = 0 → a.2 < b.2) l

theorem StabSorted.stableOrd {cmp : α → α → Int} {l : List (α × Nat)}
    (h : StabSorted cmp l) : StableOrd cmp l :=
  h.imp (fun hab => hab.2)

theorem merge_sort_merge_stab (cmp : α → α → Int)
    (htrans : CmpTrans cmp) (hflip : CmpFlip cmp) (hlt : CmpTransLt cmp)
    (L R : List (α × Nat))
    (hL : StabSorted cmp L) (hR : StabSorted cmp R)
    (hcross : ∀ a ∈ L, ∀ b ∈ R, a.2 < b.2) :
    StabSorted cmp (merge_sort_merge (tagCmp cmp) L R) := by
  generalize hm : L.length + R.length = m
  induction m using Nat.strong_induction_on generalizing L R with
  | _ m IH =>
    match L, R with
    | [], R => rw [merge_sort_merge]; exact hR
    | a :: L, [] => rw [merge_sort_merge]; exact hL
    | a :: L, b :: R =>
      rw [merge_sort_merge]
      rw [StabSorted, List.pairwise_cons] at hL hR
      split
      · next hab =>
        rw [tagCmp] at hab
        have hIH := IH (L.length + (b :: R).length) (by simp at hm ⊢; omega) L (b :: R)
          hL.2 (List.pairwise_cons.mpr hR)
          (fun x hx y hy => hcross x (List.mem_cons_of_mem a hx) y hy) rfl
        rw [StabSorted, List.pairwise_cons]
        refine ⟨?_, hIH⟩
        intro x hx
        have hx' : x ∈ L ++ b :: R :=
          (merge_sort_merge_perm (tagCmp cmp) L (b :: R)).mem_iff.mp hx
        rcases List.mem_append.mp hx' with hxl | hxbr
        · exact hL.1 x hxl
        · have htag : a.2 < x.2 := hcross a (List.mem_cons_self a L) x hxbr
          refine ⟨?_, fun _ => htag⟩
          rcases List.mem_cons.mp hxbr with hxb | hxr
          · rw [hxb]; exact hab
          · exact htrans a.1 b.1 x.1 hab (hR.1 x hxr).1
      · next hab =>
        rw [tagCmp] at hab
        have hba : cmp b.1 a.1 < 0 := hflip a.1 b.1 (by omega)
        have hIH := IH ((a :: L).length + R.length) (by simp at hm ⊢; omega) (a :: L) R
          (List.pairwise_cons.mpr hL) hR.2
          (fun x hx y hy => hcross x hx y (List.mem_cons_of_mem b hy)) rfl
        rw [StabSorted, List.pairwise_cons]
        refine ⟨?_, hIH⟩
        intro x hx
        have hx' : x ∈ (a :: L) ++ R :=
          (merge_sort_merge_perm (tagCmp cmp) (a :: L) R).mem_iff.mp hx
        rcases List.mem_append.mp hx' with hxal | hxr
        · rcases List.mem_cons.mp hxal with hxa | hxl
          · rw [hxa]
            exact ⟨le_of_lt hba, fun heq => absurd heq (ne_of_lt hba)⟩
          · have hax : cmp a.1 x.1 ≤ 0 := (hL.1 x hxl).1
            have hbx : cmp b.1 x.1 < 0 := hlt b.1 a.1 x.1 hba hax
            exact ⟨le_of_lt hbx, fun heq => absurd heq (ne_of_lt hbx)⟩
        · exact hR.1 x hxr

theorem merge_sort_impl_stab (cmp : α → α → Int)
    (htrans : CmpTrans cmp) (hflip : CmpFlip cmp) (hlt : CmpTransLt cmp)
    (l : List (α × Nat)) (htags : List.Pairwise (fun a b => a.2 < b.2) l) :
    StabSorted cmp (merge_sort_impl (tagCmp cmp) l) := by
  generalize hn : l.length = n
  induction n using Nat.strong_induction_on generalizing l with
  | _ n IH =>
    rw [merge_sort_impl]
    by_cases h1 : l.length ≤ 1
    · simp only [if_pos h1]
      subst hn
      match l, h1 with
      | [], _ => exact List.Pairwise.nil
      | [a], _ => exact List.pairwise_singleton _ a
    · simp only [if_neg h1]
      have hsplit : l.take (l.length / 2) ++ l.drop (l.length / 2) = l :=
        List.take_append_drop _ l
      have htags' := htags
      rw [← hsplit, List.pairwise_append] at htags'
      have hTL := IH (l.take (l.length / 2)).length
        (by simp [List.length_take]; omega) _ htags'.1 rfl
      have hTR := IH (l.drop (l.length / 2)).length
        (by simp [List.length_drop]; omega) _ htags'.2.1 rfl
      refine merge_sort_merge_stab cmp htrans hflip hlt _ _ hTL hTR ?_
      intro a ha b hb
      exact htags'.2.2 a
        ((merge_sort_impl_perm (tagCmp cmp) _).mem_iff.mp ha) b
        ((merge_sort_impl_perm (tagCmp cmp) _).mem_iff.mp hb)

/-! ### Insertion sort (`insert_sort_impl`, algo.c:561-704)

The outer iterator `i` walks from `begin+1` to `end`; the current value is
saved in `key`, a scan iterator `j` walks back from `i-1` shifting
elements greater than `key` one slot right, and the key is finally placed.
In the range-relative index model the scan iterator is always valid (it
stops at `begin`), so the `!iterator_valid(j)` arms of the C code
(algo.c:688-693) are unreachable. -/

/-- The shift-right walk (algo.c:604-623): while `j ≠ begin` and the
element at `j` is greater than the key, copy it one slot right and step
`j` back. -/
def insertShiftLoop (cmp : α → α → Int) (key : α) (l : List α) (j : Nat) :
    List α × Nat :=
  if j ≠ 0 ∧ 0 < cmp (nth l j) key then
    insertShiftLoop cmp key (l.set (j+1) (nth l j)) (j-1)
  else (l, j)
termination_by j
decreasing_by omega

/-- The placement epilogue (algo.c:626-687): if the walk stopped at
`j ≠ begin` the element at `j` is re-tested (it is `≤ key`, so the key
goes to slot `j+1`); if it stopped at `begin` the first element is tested
once more, either shifting it right and putting the key at `begin`, or
putting the key at `begin+1`. -/
def insertPlace (cmp : α → α → Int) (key : α) (l : List α) (j : Nat) : List α :=
  if j ≠ 0 then
    if 0 < cmp (nth l j) key then
      (l.set (j+1) (nth l j)).set 0 key
    else
      l.set (j+1) key
  else
    if 0 < cmp (nth l 0) key then
      (l.set 1 (nth l 0)).set 0 key
    else
      l.set 1 key

/-- One pass of the outer loop body (algo.c:587-698) at outer index `i`. -/
def insertStep (cmp : α → α → Int) (l : List α) (i : Nat) : List α :=
  insertPlace cmp (nth l i) (insertShiftLoop cmp (nth l i) l (i-1)).1
    (insertShiftLoop cmp (nth l i) l (i-1)).2

theorem insertShiftLoop_length (cmp : α → α → Int) (key : α) (l : List α) (j : Nat) :
    (insertShiftLoop cmp key l j).1.length = l.length := by
  induction j using Nat.strong_induction_on generalizing l with
  | _ j IH =>
    rw [insertShiftLoop]
    split
    · next hcond =>
      rw [IH (j-1) (by omega)]
      simp
    · rfl

theorem insertPlace_length (cmp : α → α → Int) (key : α) (l : List α) (j : Nat) :
    (insertPlace cmp key l j).length = l.length := by
  rw [insertPlace]
  split <;> split <;> simp

theorem insertStep_length (cmp : α → α → Int) (l : List α) (i : Nat) :
    (insertStep cmp l i).length = l.length := by
  rw [insertStep, insertPlace_length, insertShiftLoop_length]

/-- The outer loop of `insert_sort_impl` (algo.c:587-699): the body runs
while the outer iterator `i` is a valid position of the range. -/
def insertOuter (cmp : α → α → Int) (l : List α) (i : Nat) : List α :=
  if h : i < l.length then insertOuter cmp (insertStep cmp l i) (i+1) else l
termination_by l.length - i
decreasing_by
  rw [insertStep_length]
  omega

/-- `insert_sort_impl` (algo.c:561-704): a range of size ≤ 1 is left
alone, otherwise the outer loop starts at `begin+1`. -/
def insert_sort_impl (cmp : α → α → Int) (l : List α) : List α :=
  if l.length ≤ 1 then l else insertOuter cmp l 1

/-! ### Heap sort (`heap_sort_sift_down`, `heap_sort_impl`, algo.c:466-550)

The heap lives on logical indices of the range, re-walked from `begin`
each access (`get_element_at_index`); `algo_swap` is assumed to have its
temporary allocation succeed (the successful-call model). -/

/-- The index that `heap_sort_sift_down` picks as `largest`
(algo.c:469-489): the root, then the left child if it is larger, then the
right child if it is larger than that. -/
def siftLargest (cmp : α → α → Int) (l : List α) (heap_size root : Nat) : Nat :=
  let left := 2 * root + 1
  let right := 2 * root + 2
  let big := if left < heap_size ∧ 0 < cmp (nth l left) (nth l root) then left else root
  if right < heap_size ∧ 0 < cmp (nth l right) (nth l big) then right else big

theorem siftLargest_bounds (cmp : α → α → Int) (l : List α) (heap_size root : Nat)
    (h : siftLargest cmp l heap_size root ≠ root) :
    root < siftLargest cmp l heap_size root ∧
      siftLargest cmp l heap_size root < heap_size := by
  rw [siftLargest] at h ⊢
  by_cases h1 : 2*root+1 < heap_size ∧ 0 < cmp (nth l (2*root+1)) (nth l root)
  · simp only [if_pos h1] at h ⊢
    by_cases h2 : 2*root+2 < heap_size ∧ 0 < cmp (nth l (2*root+2)) (nth l (2*root+1))
    · simp only [if_pos h2] at h ⊢
      omega
    · simp only [if_neg h2] at h ⊢
      omega
  · simp only [if_neg h1] at h ⊢
    by_cases h2 : 2*root+2 < heap_size ∧ 0 < cmp (nth l (2*root+2)) (nth l root)
    · simp only [if_pos h2] at h ⊢
      omega
    · simp only [if_neg h2] at h ⊢
      omega

/-- `heap_sort_sift_down` (algo.c:466-499): if a child is larger than the
root, swap it up and continue sifting from that child. -/
def heap_sort_sift_down (cmp : α → α → Int) (l : List α) (heap_size root : Nat) :
    List α :=
  if h : siftLargest cmp l heap_size root ≠ root then
    heap_sort_sift_down cmp (lswap l root (siftLargest cmp l heap_size root))
      heap_size (siftLargest cmp l heap_size root)
  else l
termination_by heap_size - root
decreasing_by
  have := siftLargest_bounds cmp l heap_size root h
  omega

/-- The heap-construction loop (algo.c:533-535): sift down at roots
`size/2 - 1, ..., 0`; the argument counts the remaining iterations. -/
def buildLoop (cmp : α → α → Int) (n : Nat) (l : List α) : Nat → List α
  | 0 => l
  | k+1 => buildLoop cmp n (heap_sort_sift_down cmp l n k) k

/-- The extraction loop (algo.c:538-547): for `i = size-1, ..., 1`, swap
the root with position `i` and re-sift the shrunken heap `[0, i)`. -/
def extractLoop (cmp : α → α → Int) : List α → Nat → List α
  | l, 0 => l
  | l, i+1 => extractLoop cmp (heap_sort_sift_down cmp (lswap l 0 (i+1)) (i+1) 0) i

/-- `heap_sort_impl` (algo.c:510-550): build a max-heap over the whole
range, then repeatedly move the root to the end of the shrinking heap. -/
def heap_sort_impl (cmp : α → α → Int) (l : List α) : List α :=
  if l.length ≤ 1 then l
  else extractLoop cmp (buildLoop cmp l.length l (l.length / 2)) (l.length - 1)

/-! #### Insertion-sort loop invariants -/

theorem insertShiftLoop_spec (cmp : α → α → Int) (key : α) (l0 : List α) (i : Nat)
    (hi : i < l0.length) :
    ∀ j, ∀ l : List α, j < i → l.length = l0.length →
    (∀ k, k ≤ j + 1 → nth l k = nth l0 k) →
    (∀ k, j + 1 < k → k ≤ i → nth l k = nth l0 (k - 1) ∧ 0 < cmp (nth l0 (k - 1)) key) →
    (∀ k, i < k → nth l k = nth l0 k) →
    (insertShiftLoop cmp key l j).1.length = l0.length ∧
    (insertShiftLoop cmp key l j).2 ≤ j ∧
    (∀ k, k ≤ (insertShiftLoop cmp key l j).2 + 1 →
      nth (insertShiftLoop cmp key l j).1 k = nth l0 k) ∧
    (∀ k, (insertShiftLoop cmp key l j).2 + 1 < k → k ≤ i →
      nth (insertShiftLoop cmp key l j).1 k = nth l0 (k - 1) ∧
        0 < cmp (nth l0 (k - 1)) key) ∧
    (∀ k, i < k → nth (insertShiftLoop cmp key l j).1 k = nth l0 k) ∧
    ((insertShiftLoop cmp key l j).2 = 0 ∨
      cmp (nth l0 (insertShiftLoop cmp key l j).2) key ≤ 0) := by
  intro j
  induction j using Nat.strong_induction_on with
  | _ j IH =>
    intro l hji hlen ha hb hc
    rw [insertShiftLoop]
    by_cases hcond : j ≠ 0 ∧ 0 < cmp (nth l j) key
    · simp only [if_pos hcond]
      obtain ⟨hj0, hgt⟩ := hcond
      have hjl : nth l j = nth l0 j := ha j (by omega)
      rw [hjl] at hgt
      have hset : ∀ k, k ≠ j + 1 → nth (l.set (j+1) (nth l j)) k = nth l k := by
        intro k hk
        exact nth_set_ne l (j+1) k (nth l j) (fun h => hk h.symm)
      have hsetj : nth (l.set (j+1) (nth l j)) (j+1) = nth l0 j := by
        rw [nth_set_self l (j+1) (nth l j) (by omega), hjl]
      have hres := IH (j-1) (by omega) (l.set (j+1) (nth l j)) (by omega)
        (by simp [hlen])
        (by
          intro k hk
          rw [hset k (by omega)]
          exact ha k (by omega))
        (by
          intro k hk1 hk2
          rcases eq_or_ne k (j+1) with hkj | hkj
          · rw [hkj, hsetj]
            refine ⟨rfl, ?_⟩
            have hjj : j + 1 - 1 = j := by omega
            rw [hjj]
            exact hgt
          · rw [hset k hkj]
            exact hb k (by omega) hk2)
        (by
          intro k hk
          rw [hset k (by omega)]
          exact hc k hk)
      have hj1 : j - 1 + 1 = j := by omega
      exact ⟨hres.1, by omega, hres.2.2.1, hres.2.2.2.1, hres.2.2.2.2.1, hres.2.2.2.2.2⟩
    · simp only [if_neg hcond]
      push_neg at hcond
      refine ⟨hlen, le_refl j, ha, hb, hc, ?_⟩
      by_cases hj0 : j = 0
      · exact Or.inl hj0
      · right
        have hle := hcond hj0
        rw [ha j (by omega)] at hle
        exact hle

theorem insertStep_spec (cmp : α → α → Int) (l : List α) (i : Nat)
    (hi1 : 1 ≤ i) (hi : i < l.length) :
    (insertStep cmp l i).length = l.length ∧
    ((∃ p, p < i ∧ cmp (nth l p) (nth l i) ≤ 0 ∧
        (∀ m, p < m → m < i → 0 < cmp (nth l m) (nth l i)) ∧
        (∀ k, k ≤ p → nth (insertStep cmp l i) k = nth l k) ∧
        nth (insertStep cmp l i) (p+1) = nth l i ∧
        (∀ k, p + 1 < k → k ≤ i → nth (insertStep cmp l i) k = nth l (k-1)) ∧
        (∀ k, i < k → nth (insertStep cmp l i) k = nth l k)) ∨
      ((∀ m, m < i → 0 < cmp (nth l m) (nth l i)) ∧
        nth (insertStep cmp l i) 0 = nth l i ∧
        (∀ k, 1 ≤ k → k ≤ i → nth (insertStep cmp l i) k = nth l (k-1)) ∧
        (∀ k, i < k → nth (insertStep cmp l i) k = nth l k))) := by
  have hloop := insertShiftLoop_spec cmp (nth l i) l i hi (i-1) l (by omega) rfl
    (fun k _ => rfl)
    (by intro k hk1 hk2; omega)
    (fun k _ => rfl)
  rw [insertStep]
  set r := insertShiftLoop cmp (nth l i) l (i-1) with hrdef
  obtain ⟨hrlen, hrle, hA, hB, hC, hexit⟩ := hloop
  -- the elements strictly between the stop position and `i` are the shifted
  -- ones; on original indices they are `(r.2, i)`
  have hmid : ∀ m, r.2 < m → m < i → 0 < cmp (nth l m) (nth l i) := by
    intro m hm1 hm2
    have := (hB (m+1) (by omega) (by omega)).2
    have hmm : m + 1 - 1 = m := by omega
    rwa [hmm] at this
  rw [insertPlace]
  by_cases hp0 : r.2 ≠ 0
  · rw [if_pos hp0]
    have hstop : cmp (nth l r.2) (nth l i) ≤ 0 := by
      rcases hexit with h | h
      · exact absurd h hp0
      · exact h
    have hrp : nth r.1 r.2 = nth l r.2 := hA r.2 (by omega)
    rw [hrp, if_neg (not_lt.mpr hstop)]
    refine ⟨by simp [hrlen], Or.inl ⟨r.2, by omega, hstop, hmid, ?_, ?_, ?_, ?_⟩⟩
    · intro k hk
      rw [nth_set_ne _ _ _ _ (by omega), hA k (by omega)]
    · rw [nth_set_self _ _ _ (by rw [hrlen]; omega)]
    · intro k hk1 hk2
      rw [nth_set_ne _ _ _ _ (by omega)]
      exact (hB k (by omega) hk2).1
    · intro k hk
      rw [nth_set_ne _ _ _ _ (by omega), hC k hk]
  · rw [if_neg hp0]
    push_neg at hp0
    have hn2 : 2 ≤ l.length := by omega
    have hr0 : nth r.1 0 = nth l 0 := hA 0 (by omega)
    rw [hr0]
    by_cases ht : 0 < cmp (nth l 0) (nth l i)
    · rw [if_pos ht]
      refine ⟨by simp [hrlen], Or.inr ⟨?_, ?_, ?_, ?_⟩⟩
      · intro m hm
        rcases Nat.eq_zero_or_pos m with hm0 | hm0
        · rw [hm0]; exact ht
        · exact hmid m (by omega) hm
      · rw [nth_set_self _ _ _ (by simp [hrlen]; omega)]
      · intro k hk1 hk2
        rcases eq_or_ne k 1 with hk | hk
        · rw [hk]
          have hlhs : nth ((r.1.set 1 (nth l 0)).set 0 (nth l i)) 1 = nth l 0 := by
            rw [nth_set_ne _ _ _ _ (by omega),
              nth_set_self _ _ _ (by rw [hrlen]; omega)]
          rw [hlhs]
        · rw [nth_set_ne _ _ _ _ (by omega), nth_set_ne _ _ _ _ (by omega)]
          exact (hB k (by omega) hk2).1
      · intro k hk
        rw [nth_set_ne _ _ _ _ (by omega), nth_set_ne _ _ _ _ (by omega)]
        exact hC k hk
    · rw [if_neg ht]
      refine ⟨by simp [hrlen], Or.inl ⟨0, by omega, not_lt.mp ht, ?_, ?_, ?_, ?_, ?_⟩⟩
      · intro m hm1 hm2
        exact hmid m (by omega) hm2
      · intro k hk
        have : k = 0 := by omega
        rw [this, nth_set_ne _ _ _ _ (by omega), hr0]
      · rw [nth_set_self _ _ _ (by rw [hrlen]; omega)]
      · intro k hk1 hk2
        rw [nth_set_ne _ _ _ _ (by omega)]
        exact (hB k (by omega) hk2).1
      · intro k hk
        rw [nth_set_ne _ _ _ _ (by omega), hC k hk]

/-! #### From the pointwise step description back to list structure -/

theorem ext_nth (l1 l2 : List α) (hlen : l1.length = l2.length)
    (h : ∀ k, k < l1.length → nth l1 k = nth l2 k) : l1 = l2 := by
  apply List.ext_getElem hlen
  intro n h1 h2
  rw [← nth_eq_getElem l1 n h1, ← nth_eq_getElem l2 n h2]
  exact h n h1

theorem nth_take (l : List α) (n k : Nat) (h : k < n) :
    nth (l.take n) k = nth l k := by
  rw [nth, nth, List.getD_eq_getElem?_getD, List.getD_eq_getElem?_getD,
    List.getElem?_take, if_pos h]

theorem nth_drop (l : List α) (n k : Nat) :
    nth (l.drop n) k = nth l (n + k) := by
  rw [nth, nth, List.getD_eq_getElem?_getD, List.getD_eq_getElem?_getD,
    List.getElem?_drop]

theorem nth_append_left (l1 l2 : List α) (k : Nat) (h : k < l1.length) :
    nth (l1 ++ l2) k = nth l1 k := by
  rw [nth, nth, List.getD_eq_getElem?_getD, List.getD_eq_getElem?_getD,
    List.getElem?_append_left h]

theorem nth_append_right (l1 l2 : List α) (k : Nat) (h : l1.length ≤ k) :
    nth (l1 ++ l2) k = nth l2 (k - l1.length) := by
  rw [nth, nth, List.getD_eq_getElem?_getD, List.getD_eq_getElem?_getD,
    List.getElem?_append_right h]

theorem nth_cons (a : α) (l : List α) (k : Nat) :
    nth (a :: l) k = if k = 0 then a else nth l (k - 1) := by
  rw [nth, List.getD_eq_getElem?_getD, List.getElem?_cons]
  split
  · rfl
  · rw [nth, List.getD_eq_getElem?_getD]

/-- Middle-insertion case of `insertStep_spec` rebuilt as a list identity:
the new prefix of length `i+1` is the old prefix up to `p`, then the key,
then the shifted old elements `(p, i)`. -/
theorem take_insert_reconstruct (r u : List α) (key : α) (p i : Nat)
    (hlen : r.length = u.length) (hpi : p < i) (hi : i < u.length)
    (h1 : ∀ k, k ≤ p → nth r k = nth u k)
    (h2 : nth r (p+1) = key)
    (h3 : ∀ k, p + 1 < k → k ≤ i → nth r k = nth u (k-1)) :
    r.take (i+1) = u.take (p+1) ++ key :: ((u.take i).drop (p+1)) := by
  apply ext_nth
  · simp only [List.length_take, List.length_append, List.length_cons,
      List.length_drop]
    omega
  · intro k hk
    simp only [List.length_take] at hk
    have hutl : (u.take (p+1)).length = p + 1 := by
      simp only [List.length_take]
      omega
    rw [nth_take _ _ _ (by omega)]
    rcases Nat.lt_or_ge k (p+1) with hkp | hkp
    · rw [nth_append_left _ _ _ (by omega), nth_take _ _ _ hkp]
      exact h1 k (by omega)
    · rw [nth_append_right _ _ _ (by omega), hutl, nth_cons]
      rcases eq_or_ne k (p+1) with hk1 | hk1
      · rw [if_pos (by omega), hk1]
        exact h2
      · rw [if_neg (by omega), nth_drop, nth_take _ _ _ (by omega)]
        have harith : p + 1 + (k - (p + 1) - 1) = k - 1 := by omega
        rw [harith]
        exact h3 k (by omega) (by omega)

/-- Front-insertion case of `insertStep_spec` as a list identity. -/
theorem take_insert_reconstruct_front (r u : List α) (key : α) (i : Nat)
    (hlen : r.length = u.length) (hi1 : 1 ≤ i) (hi : i < u.length)
    (h2 : nth r 0 = key)
    (h3 : ∀ k, 1 ≤ k → k ≤ i → nth r k = nth u (k-1)) :
    r.take (i+1) = key :: u.take i := by
  apply ext_nth
  · simp only [List.length_take, List.length_cons]
    omega
  · intro k hk
    simp only [List.length_take] at hk
    rw [nth_take _ _ _ (by omega), nth_cons]
    rcases eq_or_ne k 0 with hk0 | hk0
    · rw [if_pos hk0, hk0]
      exact h2
    · rw [if_neg hk0, nth_take _ _ _ (by omega)]
      exact h3 k (by omega) (by omega)

/-- The suffix beyond the outer index is untouched by one insertion pass. -/
theorem drop_insert_reconstruct (r u : List α) (i : Nat)
    (hlen : r.length = u.length)
    (h : ∀ k, i < k → nth r k = nth u k) :
    r.drop (i+1) = u.drop (i+1) := by
  apply ext_nth
  · simp only [List.length_drop]
    omega
  · intro k hk
    rw [nth_drop, nth_drop]
    exact h (i + 1 + k) (by omega)

theorem getElem_take_nth (l : List α) (n k : Nat) (h : k < (l.take n).length) :
    (l.take n)[k] = nth l k := by
  have hk : k < n := by
    simp only [List.length_take] at h
    omega
  rw [← nth_eq_getElem _ _ h, nth_take _ _ _ hk]

/-- Pairwise order of a sorted prefix, read through `nth`. -/
theorem sortedLe_take_nth (cmp : α → α → Int) (l : List α) (i : Nat)
    (h : SortedLe cmp (l.take i)) (hi : i ≤ l.length) :
    ∀ m m', m < m' → m' < i → cmp (nth l m) (nth l m') ≤ 0 := by
  intro m m' hmm hmi
  have hlen : (l.take i).length = i := by
    simp only [List.length_take]
    omega
  have := List.pairwise_iff_getElem.mp h m m' (by omega) (by omega) hmm
  rwa [getElem_take_nth, getElem_take_nth] at this

/-- One pass of the outer loop keeps the prefix sorted and permutes it
with one more original element appended. -/
theorem insertOuter_spec (cmp : α → α → Int) (htot : CmpTotal cmp)
    (htrans : CmpTrans cmp) (l0 : List α) :
    ∀ (fuel : Nat) (i : Nat) (l : List α), l0.length - i = fuel → 1 ≤ i →
    l.length = l0.length →
    (l.take i).Perm (l0.take i) → SortedLe cmp (l.take i) →
    (∀ k, i ≤ k → nth l k = nth l0 k) →
    (insertOuter cmp l i).Perm l0 ∧ SortedLe cmp (insertOuter cmp l i) := by
  intro fuel
  induction fuel with
  | zero =>
    intro i l hfuel hi1 hlen hperm hsort hsuffix
    rw [insertOuter]
    have hnot : ¬ i < l.length := by omega
    simp only [dif_neg hnot]
    have hl : l.take i = l := List.take_of_length_le (by omega)
    have hl0 : l0.take i = l0 := List.take_of_length_le (by omega)
    rw [hl, hl0] at hperm
    rw [hl] at hsort
    exact ⟨hperm, hsort⟩
  | succ fuel IH =>
    intro i l hfuel hi1 hlen hperm hsort hsuffix
    rw [insertOuter]
    have hi : i < l.length := by omega
    have hi0 : i < l0.length := by omega
    simp only [dif_pos hi]
    have hfe : l0.length - (i+1) = fuel := by omega
    have hi1' : 1 ≤ i + 1 := by omega
    have hlen2 : (insertStep cmp l i).length = l0.length := by
      rw [insertStep_length]
      exact hlen
    obtain ⟨hrl, hcases⟩ := insertStep_spec cmp l i hi1 hi
    have hsort' := sortedLe_take_nth cmp l i hsort (by omega)
    have hkey0 : nth l i = nth l0 i := hsuffix i (le_refl i)
    -- the new prefix of length i+1 is a permutation of `nth l i :: l.take i`
    -- and is sorted; establish both for either insertion shape
    have hmain :
        ((insertStep cmp l i).take (i+1)).Perm (nth l i :: l.take i) ∧
        SortedLe cmp ((insertStep cmp l i).take (i+1)) := by
      rcases hcases with ⟨p, hpi, hstop, hmid, hA, hB, hC, hD⟩ | ⟨hall, hA, hB, hC⟩
      · -- middle insertion after position p
        have hrec := take_insert_reconstruct (insertStep cmp l i) l (nth l i) p i
          (by omega) hpi hi hA hB hC
        constructor
        · rw [hrec]
          have h1 : (l.take (p+1) ++ nth l i :: ((l.take i).drop (p+1))).Perm
              (nth l i :: (l.take (p+1) ++ (l.take i).drop (p+1))) :=
            List.perm_middle
          have h2 : l.take (p+1) ++ (l.take i).drop (p+1) = l.take i := by
            have ht : (l.take i).take (p+1) = l.take (p+1) := by
              rw [List.take_take, Nat.min_eq_left (by omega)]
            rw [← ht, List.take_append_drop]
          rw [h2] at h1
          exact h1
        · -- sortedness of the new prefix, via pairwise positions
          have hlen' : ((insertStep cmp l i).take (i+1)).length = i + 1 := by
            simp only [List.length_take]
            omega
          rw [SortedLe, List.pairwise_iff_getElem]
          intro a b ha hb hab
          rw [hlen'] at ha hb
          rw [getElem_take_nth _ _ _ (by rw [hlen']; omega) ]
          rw [getElem_take_nth _ _ _ (by rw [hlen']; omega) ]
          -- zones: [0, p], {p+1}, (p+1, i]
          rcases Nat.lt_or_ge a (p+1) with hzA | hzA
          · have hva : nth (insertStep cmp l i) a = nth l a := hA a (by omega)
            rw [hva]
            rcases Nat.lt_or_ge b (p+1) with hzB | hzB
            · rw [hA b (by omega)]
              exact hsort' a b hab (by omega)
            · rcases eq_or_ne b (p+1) with hbp | hbp
              · rw [hbp, hB]
                rcases eq_or_ne a p with hap | hap
                · rw [hap]
                  exact hstop
                · exact htrans _ _ _ (hsort' a p (by omega) (by omega)) hstop
              · rw [hC b (by omega) (by omega)]
                exact hsort' a (b-1) (by omega) (by omega)
          · rcases eq_or_ne a (p+1) with hap | hap
            · rw [hap, hB]
              have hbz : p + 1 < b := by omega
              rw [hC b hbz (by omega)]
              have hgt := hmid (b-1) (by omega) (by omega)
              rcases htot (nth l i) (nth l (b-1)) with h | h
              · exact h
              · exact absurd hgt (not_lt.mpr h)
            · rw [hC a (by omega) (by omega), hC b (by omega) (by omega)]
              exact hsort' (a-1) (b-1) (by omega) (by omega)
      · -- insertion at the front
        have hrec := take_insert_reconstruct_front (insertStep cmp l i) l (nth l i) i
          (by omega) hi1 hi hA hB
        constructor
        · rw [hrec]
        · have hlen' : ((insertStep cmp l i).take (i+1)).length = i + 1 := by
            simp only [List.length_take]
            omega
          rw [SortedLe, List.pairwise_iff_getElem]
          intro a b ha hb hab
          rw [hlen'] at ha hb
          rw [getElem_take_nth _ _ _ (by rw [hlen']; omega) ]
          rw [getElem_take_nth _ _ _ (by rw [hlen']; omega) ]
          rcases Nat.eq_zero_or_pos a with ha0 | ha0
          · rw [ha0, hA]
            rw [hB b (by omega) (by omega)]
            have hgt := hall (b-1) (by omega)
            rcases htot (nth l i) (nth l (b-1)) with h | h
            · exact h
            · exact absurd hgt (not_lt.mpr h)
          · rw [hB a (by omega) (by omega), hB b (by omega) (by omega)]
            exact hsort' (a-1) (b-1) (by omega) (by omega)
    -- new prefix is a permutation of the original prefix of length i+1
    have hperm' : ((insertStep cmp l i).take (i+1)).Perm (l0.take (i+1)) := by
      have h1 := hmain.1
      have h2 : (nth l i :: l.take i).Perm (nth l0 i :: l0.take i) := by
        rw [hkey0]
        exact hperm.cons _
      have h3 : l0.take (i+1) = l0.take i ++ [nth l0 i] := by
        rw [List.take_succ, nth_eq_getElem l0 i hi0]
        simp [List.getElem?_eq_getElem hi0]
      have h4 : (l0.take i ++ [nth l0 i]).Perm (nth l0 i :: l0.take i) := by
        have := @List.perm_middle α (nth l0 i) (l0.take i) []
        simpa using this
      rw [h3]
      exact (h1.trans h2).trans h4.symm
    -- suffix untouched
    have hsuffix' : ∀ k, i + 1 ≤ k → nth (insertStep cmp l i) k = nth l0 k := by
      intro k hk
      have hex : ∀ k, i < k → nth (insertStep cmp l i) k = nth l k := by
        rcases hcases with ⟨p, _, _, _, _, _, _, hD⟩ | ⟨_, _, _, hC⟩
        · exact hD
        · exact hC
      rw [hex k (by omega)]
      exact hsuffix k (by omega)
    exact IH (i+1) (insertStep cmp l i) hfe hi1' hlen2 hperm' hmain.2 hsuffix'

/-- `insert_sort_impl` sorts: the result is non-decreasing and a
permutation of the input range. -/
theorem insert_sort_impl_correct (cmp : α → α → Int) (htot : CmpTotal cmp)
    (htrans : CmpTrans cmp) (l : List α) :
    (insert_sort_impl cmp l).Perm l ∧ SortedLe cmp (insert_sort_impl cmp l) := by
  rw [insert_sort_impl]
  by_cases h1 : l.length ≤ 1
  · simp only [if_pos h1]
    refine ⟨List.Perm.refl l, ?_⟩
    match l, h1 with
    | [], _ => exact List.Pairwise.nil
    | [a], _ => exact List.pairwise_singleton _ a
  · simp only [if_neg h1]
    have := insertOuter_spec cmp htot htrans l (l.length - 1) 1 l (by omega)
      (le_refl 1) rfl (List.Perm.refl _) ?_ (fun k _ => rfl)
    · exact this
    · match l, h1 with
      | [], h => exact absurd (by simp) h
      | a :: l, _ =>
        simp only [List.take_succ_cons, List.take_zero]
        exact List.pairwise_singleton _ a

/-! #### Insertion-sort stability -/

theorem nth_mem_take (l : List α) (i m : Nat) (hm : m < i) (hi : i ≤ l.length) :
    nth l m ∈ l.take i := by
  have hmt : m < (l.take i).length := by
    simp only [List.length_take]
    omega
  have hmem := List.getElem_mem hmt
  rwa [getElem_take_nth l i m hmt] at hmem

theorem tags_lt_nth (l0 : List (α × Nat))
    (htags : List.Pairwise (fun a b => a.2 < b.2) l0)
    (m i : Nat) (hmi : m < i) (hi : i < l0.length) :
    (nth l0 m).2 < (nth l0 i).2 := by
  have h := List.pairwise_iff_getElem.mp htags m i (by omega) hi hmi
  rwa [← nth_eq_getElem _ _ (by omega), ← nth_eq_getElem _ _ hi] at h

theorem stabSorted_take_nth (cmp : α → α → Int) (l : List (α × Nat)) (i : Nat)
    (h : StabSorted cmp (l.take i)) (hi : i ≤ l.length) :
    ∀ m m', m < m' → m' < i → cmp (nth l m).1 (nth l m').1 ≤ 0 ∧
      (cmp (nth l m).1 (nth l m').1 = 0 → (nth l m).2 < (nth l m').2) := by
  intro m m' hmm hmi
  have hp := List.pairwise_iff_getElem.mp h m m'
    (by simp only [List.length_take]; omega)
    (by simp only [List.length_take]; omega) hmm
  rwa [getElem_take_nth, getElem_take_nth] at hp

/-- One outer-loop pass preserves sorted-and-stable prefixes. -/
theorem insertOuter_stab (cmp : α → α → Int) (htrans : CmpTrans cmp)
    (hflip : CmpFlip cmp) (l0 : List (α × Nat))
    (htags : List.Pairwise (fun a b => a.2 < b.2) l0) :
    ∀ (fuel : Nat) (i : Nat) (l : List (α × Nat)), l0.length - i = fuel → 1 ≤ i →
    l.length = l0.length →
    (l.take i).Perm (l0.take i) → StabSorted cmp (l.take i) →
    (∀ k, i ≤ k → nth l k = nth l0 k) →
    StabSorted cmp (insertOuter (tagCmp cmp) l i) := by
  intro fuel
  induction fuel with
  | zero =>
    intro i l hfuel hi1 hlen hperm hsort hsuffix
    rw [insertOuter]
    have hnot : ¬ i < l.length := by omega
    simp only [dif_neg hnot]
    have hl : l.take i = l := List.take_of_length_le (by omega)
    rwa [hl] at hsort
  | succ fuel IH =>
    intro i l hfuel hi1 hlen hperm hsort hsuffix
    rw [insertOuter]
    have hi : i < l.length := by omega
    have hi0 : i < l0.length := by omega
    simp only [dif_pos hi]
    have hfe : l0.length - (i+1) = fuel := by omega
    have hi1' : 1 ≤ i + 1 := by omega
    have hlen2 : (insertStep (tagCmp cmp) l i).length = l0.length := by
      rw [insertStep_length]
      exact hlen
    obtain ⟨hrl, hcases⟩ := insertStep_spec (tagCmp cmp) l i hi1 hi
    have hsort' := stabSorted_take_nth cmp l i hsort (by omega)
    have hkey0 : nth l i = nth l0 i := hsuffix i (le_refl i)
    -- every tag in the sorted prefix is smaller than the key's tag
    have htagkey : ∀ m, m < i → (nth l m).2 < (nth l i).2 := by
      intro m hm
      have hmem : nth l m ∈ l.take i := nth_mem_take l i m hm (by omega)
      have hmem0 : nth l m ∈ l0.take i := hperm.mem_iff.mp hmem
      rcases List.mem_iff_getElem.mp hmem0 with ⟨t, ht, hteq⟩
      have htl : t < i := by
        simp only [List.length_take] at ht
        omega
      rw [getElem_take_nth _ _ _ ht] at hteq
      rw [← hteq, hkey0]
      exact tags_lt_nth l0 htags t i htl hi0
    have hmain : StabSorted cmp ((insertStep (tagCmp cmp) l i).take (i+1)) := by
      have hlen' : ((insertStep (tagCmp cmp) l i).take (i+1)).length = i + 1 := by
        simp only [List.length_take]
        omega
      rw [StabSorted, List.pairwise_iff_getElem]
      intro a b ha hb hab
      rw [hlen'] at ha hb
      rw [getElem_take_nth _ _ _ (by rw [hlen']; omega) ]
      rw [getElem_take_nth _ _ _ (by rw [hlen']; omega) ]
      rcases hcases with ⟨p, hpi, hstop, hmid, hA, hB, hC, hD⟩ | ⟨hall, hA, hB, hC⟩
      · rw [tagCmp] at hstop
        rcases Nat.lt_or_ge a (p+1) with hzA | hzA
        · rw [hA a (by omega)]
          rcases Nat.lt_or_ge b (p+1) with hzB | hzB
          · rw [hA b (by omega)]
            exact hsort' a b hab (by omega)
          · rcases eq_or_ne b (p+1) with hbp | hbp
            · rw [hbp, hB]
              have hle : cmp (nth l a).1 (nth l i).1 ≤ 0 := by
                rcases eq_or_ne a p with hap | hap
                · rw [hap]; exact hstop
                · exact htrans _ _ _ (hsort' a p (by omega) (by omega)).1 hstop
              exact ⟨hle, fun _ => htagkey a (by omega)⟩
            · rw [hC b (by omega) (by omega)]
              exact hsort' a (b-1) (by omega) (by omega)
        · rcases eq_or_ne a (p+1) with hap | hap
          · rw [hap, hB]
            have hbz : p + 1 < b := by omega
            rw [hC b hbz (by omega)]
            have hgt := hmid (b-1) (by omega) (by omega)
            rw [tagCmp] at hgt
            have hlt := hflip _ _ hgt
            exact ⟨le_of_lt hlt, fun heq => absurd heq (ne_of_lt hlt)⟩
          · rw [hC a (by omega) (by omega), hC b (by omega) (by omega)]
            exact hsort' (a-1) (b-1) (by omega) (by omega)
      · rcases Nat.eq_zero_or_pos a with ha0 | ha0
        · rw [ha0, hA, hB b (by omega) (by omega)]
          have hgt := hall (b-1) (by omega)
          rw [tagCmp] at hgt
          have hlt := hflip _ _ hgt
          exact ⟨le_of_lt hlt, fun heq => absurd heq (ne_of_lt hlt)⟩
        · rw [hB a (by omega) (by omega), hB b (by omega) (by omega)]
          exact hsort' (a-1) (b-1) (by omega) (by omega)
    -- permutation of the new prefix (same argument as the plain case)
    have hperm' : ((insertStep (tagCmp cmp) l i).take (i+1)).Perm (l0.take (i+1)) := by
      have hstep1 : ((insertStep (tagCmp cmp) l i).take (i+1)).Perm (nth l i :: l.take i) := by
        rcases hcases with ⟨p, hpi, hstop, hmid, hA, hB, hC, hD⟩ | ⟨hall, hA, hB, hC⟩
        · have hrec := take_insert_reconstruct (insertStep (tagCmp cmp) l i) l
            (nth l i) p i (by omega) hpi hi hA hB hC
          rw [hrec]
          have h1 : (l.take (p+1) ++ nth l i :: ((l.take i).drop (p+1))).Perm
              (nth l i :: (l.take (p+1) ++ (l.take i).drop (p+1))) :=
            List.perm_middle
          have h2 : l.take (p+1) ++ (l.take i).drop (p+1) = l.take i := by
            have ht : (l.take i).take (p+1) = l.take (p+1) := by
              rw [List.take_take, Nat.min_eq_left (by omega)]
            rw [← ht, List.take_append_drop]
          rw [h2] at h1
          exact h1
        · have hrec := take_insert_reconstruct_front (insertStep (tagCmp cmp) l i) l
            (nth l i) i (by omega) hi1 hi hA hB
          rw [hrec]
      have h2 : (nth l i :: l.take i).Perm (nth l0 i :: l0.take i) := by
        rw [hkey0]
        exact hperm.cons _
      have h3 : l0.take (i+1) = l0.take i ++ [nth l0 i] := by
        rw [List.take_succ, nth_eq_getElem l0 i hi0]
        simp [List.getElem?_eq_getElem hi0]
      have h4 : (l0.take i ++ [nth l0 i]).Perm (nth l0 i :: l0.take i) := by
        have hp := @List.perm_middle (α × Nat) (nth l0 i) (l0.take i) []
        simpa using hp
      rw [h3]
      exact (hstep1.trans h2).trans h4.symm
    have hsuffix' : ∀ k, i + 1 ≤ k → nth (insertStep (tagCmp cmp) l i) k = nth l0 k := by
      intro k hk
      have hex : ∀ k, i < k → nth (insertStep (tagCmp cmp) l i) k = nth l k := by
        rcases hcases with ⟨p, _, _, _, _, _, _, hD⟩ | ⟨_, _, _, hC⟩
        · exact hD
        · exact hC
      rw [hex k (by omega)]
      exact hsuffix k (by omega)
    exact IH (i+1) (insertStep (tagCmp cmp) l i) hfe hi1' hlen2 hperm' hmain hsuffix'

/-- `insert_sort_impl` is stable: on tag-annotated input with increasing
tags, equal keys keep increasing tags. -/
theorem insert_sort_impl_stab (cmp : α → α → Int) (htrans : CmpTrans cmp)
    (hflip : CmpFlip cmp) (l : List (α × Nat))
    (htags : List.Pairwise (fun a b => a.2 < b.2) l) :
    StabSorted cmp (insert_sort_impl (tagCmp cmp) l) := by
  rw [insert_sort_impl]
  by_cases h1 : l.length ≤ 1
  · simp only [if_pos h1]
    match l, h1 with
    | [], _ => exact List.Pairwise.nil
    | [a], _ => exact List.pairwise_singleton _ a
  · simp only [if_neg h1]
    refine insertOuter_stab cmp htrans hflip l htags (l.length - 1) 1 l (by omega)
      (le_refl 1) rfl (List.Perm.refl _) ?_ (fun k _ => rfl)
    match l, h1 with
    | [], h => exact absurd (by simp) h
    | a :: l, _ =>
      simp only [List.take_succ_cons, List.take_zero]
      exact List.pairwise_singleton _ a

/-! #### Heap-sort invariants

`HeapFrom cmp l n r` says the max-heap parent-child ordering holds on the
prefix `[0, n)` for every parent index `≥ r`. -/

def HeapFrom (cmp : α → α → Int) (l : List α) (n r : Nat) : Prop :=
  ∀ i j, r ≤ i → j < n → (j = 2*i+1 ∨ j = 2*i+2) →
    cmp (nth l j) (nth l i) ≤ 0

/-- When `siftLargest` stays at the root, both in-heap children compare
`≤ 0` against the root. -/
theorem siftLargest_eq_root (cmp : α → α → Int) (l : List α) (n root : Nat)
    (h : siftLargest cmp l n root = root) :
    ∀ j, (j = 2*root+1 ∨ j = 2*root+2) → j < n →
      cmp (nth l j) (nth l root) ≤ 0 := by
  rw [siftLargest] at h
  by_cases h1 : 2*root+1 < n ∧ 0 < cmp (nth l (2*root+1)) (nth l root)
  · rw [if_pos h1] at h
    split at h <;> omega
  · rw [if_neg h1] at h
    split at h
    · omega
    · next h2 =>
      intro j hj hjn
      rcases hj with hj | hj
      · subst hj
        rcases not_and_or.mp h1 with hh | hh
        · omega
        · exact not_lt.mp hh
      · subst hj
        rcases not_and_or.mp h2 with hh | hh
        · omega
        · exact not_lt.mp hh

/-- When `siftLargest` picks a child, that child is one of the two heap
children, it is strictly larger than the root, and the other in-heap child
compares `≤ 0` against it. -/
theorem siftLargest_ne_root (cmp : α → α → Int)
    (hflip : CmpFlip cmp) (hlt : CmpTransLt cmp) (hlelt : CmpTransLeLt cmp)
    (l : List α) (n root : Nat)
    (h : siftLargest cmp l n root ≠ root) :
    (siftLargest cmp l n root = 2*root+1 ∨ siftLargest cmp l n root = 2*root+2) ∧
    siftLargest cmp l n root < n ∧
    cmp (nth l root) (nth l (siftLargest cmp l n root)) < 0 ∧
    (∀ j, (j = 2*root+1 ∨ j = 2*root+2) → j < n →
      cmp (nth l j) (nth l (siftLargest cmp l n root)) ≤ 0) := by
  rw [siftLargest] at h ⊢
  by_cases h1 : 2*root+1 < n ∧ 0 < cmp (nth l (2*root+1)) (nth l root)
  · rw [if_pos h1] at h ⊢
    by_cases h2 : 2*root+2 < n ∧ 0 < cmp (nth l (2*root+2)) (nth l (2*root+1))
    · rw [if_pos h2] at h ⊢
      have hr1 : cmp (nth l root) (nth l (2*root+1)) < 0 := hflip _ _ h1.2
      have h12 : cmp (nth l (2*root+1)) (nth l (2*root+2)) < 0 := hflip _ _ h2.2
      refine ⟨Or.inr rfl, h2.1, hlt _ _ _ hr1 (le_of_lt h12), ?_⟩
      intro j hj hjn
      rcases hj with hj | hj
      · subst hj
        exact le_of_lt h12
      · subst hj
        exact cmp_self_nonpos hflip _
    · rw [if_neg h2] at h ⊢
      refine ⟨Or.inl rfl, h1.1, hflip _ _ h1.2, ?_⟩
      intro j hj hjn
      rcases hj with hj | hj
      · subst hj
        exact cmp_self_nonpos hflip _
      · subst hj
        rcases not_and_or.mp h2 with hh | hh
        · omega
        · exact not_lt.mp hh
  · rw [if_neg h1] at h ⊢
    by_cases h2 : 2*root+2 < n ∧ 0 < cmp (nth l (2*root+2)) (nth l root)
    · rw [if_pos h2] at h ⊢
      have hr2 : cmp (nth l root) (nth l (2*root+2)) < 0 := hflip _ _ h2.2
      refine ⟨Or.inr rfl, h2.1, hr2, ?_⟩
      intro j hj hjn
      rcases hj with hj | hj
      · subst hj
        rcases not_and_or.mp h1 with hh | hh
        · omega
        · exact le_of_lt (hlelt _ _ _ (not_lt.mp hh) hr2)
      · subst hj
        exact cmp_self_nonpos hflip _
    · rw [if_neg h2] at h
      exact absurd rfl h

theorem heap_sort_sift_down_length (cmp : α → α → Int) (l : List α)
    (n root : Nat) :
    (heap_sort_sift_down cmp l n root).length = l.length := by
  generalize hm : n - root = m
  induction m using Nat.strong_induction_on generalizing l root with
  | _ m IH =>
    rw [heap_sort_sift_down]
    split
    · next h =>
      have hb := siftLargest_bounds cmp l n root h
      rw [IH (n - siftLargest cmp l n root) (by omega) _ _ rfl, length_lswap]
    · rfl

theorem heap_sort_sift_down_perm (cmp : α → α → Int) (l : List α)
    (n root : Nat) (hn : n ≤ l.length) :
    (heap_sort_sift_down cmp l n root).Perm l := by
  generalize hm : n - root = m
  induction m using Nat.strong_induction_on generalizing l root with
  | _ m IH =>
    rw [heap_sort_sift_down]
    split
    · next h =>
      have hb := siftLargest_bounds cmp l n root h
      have hrec := IH (n - siftLargest cmp l n root) (by omega)
        (lswap l root (siftLargest cmp l n root)) (siftLargest cmp l n root)
        (by rw [length_lswap]; exact hn) rfl
      exact hrec.trans (lswap_perm l root (siftLargest cmp l n root)
        (by omega) (by omega))
    · exact List.Perm.refl l

/-- A `siftLargest` result different from the root is one of the two
child indices. -/
theorem siftLargest_cases (cmp : α → α → Int) (l : List α) (n root : Nat)
    (h : siftLargest cmp l n root ≠ root) :
    siftLargest cmp l n root = 2*root+1 ∨ siftLargest cmp l n root = 2*root+2 := by
  rw [siftLargest] at h ⊢
  by_cases h1 : 2*root+1 < n ∧ 0 < cmp (nth l (2*root+1)) (nth l root)
  · rw [if_pos h1] at h ⊢
    by_cases h2 : 2*root+2 < n ∧ 0 < cmp (nth l (2*root+2)) (nth l (2*root+1))
    · rw [if_pos h2]
      exact Or.inr rfl
    · rw [if_neg h2]
      exact Or.inl rfl
  · rw [if_neg h1] at h ⊢
    by_cases h2 : 2*root+2 < n ∧ 0 < cmp (nth l (2*root+2)) (nth l root)
    · rw [if_pos h2]
      exact Or.inr rfl
    · rw [if_neg h2] at h
      exact absurd rfl h

/-- Sifting at `root` changes no entry outside `{root} ∪ [2*root+1, n)`. -/
theorem heap_sort_sift_down_unchanged (cmp : α → α → Int) (l : List α)
    (n root : Nat) :
    ∀ k, (n ≤ k ∨ (k < 2*root+1 ∧ k ≠ root)) →
      nth (heap_sort_sift_down cmp l n root) k = nth l k := by
  generalize hm : n - root = m
  induction m using Nat.strong_induction_on generalizing l root with
  | _ m IH =>
    intro k hk
    rw [heap_sort_sift_down]
    split
    · next h =>
      have hb := siftLargest_bounds cmp l n root h
      have hc := siftLargest_cases cmp l n root h
      have hrec := IH (n - siftLargest cmp l n root) (by omega)
        (lswap l root (siftLargest cmp l n root)) (siftLargest cmp l n root) rfl
        k (by omega)
      rw [hrec, nth_lswap_other l root (siftLargest cmp l n root) k
        (by omega) (by omega)]
    · rfl

/-- The value the sift leaves at its root is the old root value or one of
the old in-heap child values. -/
theorem heap_sort_sift_down_root_value (cmp : α → α → Int) (l : List α)
    (n root : Nat) (hn : n ≤ l.length) :
    nth (heap_sort_sift_down cmp l n root) root = nth l root ∨
    ∃ c, (c = 2*root+1 ∨ c = 2*root+2) ∧ c < n ∧
      nth (heap_sort_sift_down cmp l n root) root = nth l c := by
  rw [heap_sort_sift_down]
  split
  · next h =>
    have hb := siftLargest_bounds cmp l n root h
    right
    refine ⟨siftLargest cmp l n root, ?_, hb.2, ?_⟩
    · exact siftLargest_cases cmp l n root h
    · rw [heap_sort_sift_down_unchanged cmp _ n (siftLargest cmp l n root) root
        (by right; omega),
        nth_lswap_left l root (siftLargest cmp l n root) (by omega)]
  · left
    rfl

/-- Sifting restores the heap property at the root, provided every parent
strictly below the root already satisfies it. -/
theorem heap_sort_sift_down_heap (cmp : α → α → Int)
    (hflip : CmpFlip cmp) (hlt : CmpTransLt cmp) (hlelt : CmpTransLeLt cmp) :
    ∀ (m : Nat) (l : List α) (root : Nat) (n : Nat), n - root = m →
    n ≤ l.length → HeapFrom cmp l n (root+1) →
    HeapFrom cmp (heap_sort_sift_down cmp l n root) n root := by
  intro m
  induction m using Nat.strong_induction_on with
  | _ m IH =>
    intro l root n hm hn h
    rw [heap_sort_sift_down]
    split
    · next hne =>
      have hb := siftLargest_bounds cmp l n root hne
      have hcc := siftLargest_cases cmp l n root hne
      have hspec := siftLargest_ne_root cmp hflip hlt hlelt l n root hne
      set c := siftLargest cmp l n root with hcdef
      have hroot_lt : root < l.length := by omega
      have hc_lt : c < l.length := by omega
      have hswap_heap : HeapFrom cmp (lswap l root c) n (c+1) := by
        intro i j hi hj hij
        rw [nth_lswap_other l root c i (by omega) (by omega),
            nth_lswap_other l root c j (by omega) (by omega)]
        exact h i j (by omega) hj hij
      have hrec := IH (n - c) (by omega) (lswap l root c) c n rfl
        (by rw [length_lswap]; exact hn) hswap_heap
      have hLroot : nth (heap_sort_sift_down cmp (lswap l root c) n c) root =
          nth l c := by
        rw [heap_sort_sift_down_unchanged cmp _ n c root (by right; omega),
          nth_lswap_left l root c hroot_lt]
      intro i j hi hj hij
      rcases Nat.lt_or_ge i c with hic | hic
      · rcases eq_or_ne i root with hir | hir
        · rw [hir] at hij ⊢
          rw [hLroot]
          rcases eq_or_ne j c with hjc | hjc
          · rw [hjc]
            rcases heap_sort_sift_down_root_value cmp (lswap l root c) n c
              (by rw [length_lswap]; exact hn) with hv | ⟨d, hd, hdn, hv⟩
            · rw [hv, nth_lswap_right l root c hc_lt]
              exact le_of_lt hspec.2.2.1
            · rw [hv, nth_lswap_other l root c d (by omega) (by omega)]
              exact h c d (by omega) hdn hd
          · rw [heap_sort_sift_down_unchanged cmp _ n c j (by right; omega),
              nth_lswap_other l root c j (by omega) hjc]
            exact hspec.2.2.2 j hij hj
        · rw [heap_sort_sift_down_unchanged cmp _ n c i
                (by right; exact ⟨by omega, by omega⟩),
              heap_sort_sift_down_unchanged cmp _ n c j
                (by right; exact ⟨by omega, by omega⟩),
              nth_lswap_other l root c i (by omega) (by omega),
              nth_lswap_other l root c j (by omega) (by omega)]
          exact h i j (by omega) hj hij
      · exact hrec i j hic hj hij
    · next hne =>
      intro i j hi hj hij
      rcases eq_or_ne i root with hir | hir
      · rw [hir] at hij ⊢
        exact siftLargest_eq_root cmp l n root (not_ne_iff.mp hne) j hij hj
      · exact h i j (by omega) hj hij

/-- The root of a max-heap dominates every in-heap element. -/
theorem heapFrom_root_max (cmp : α → α → Int) (htot : CmpTotal cmp)
    (htrans : CmpTrans cmp) (l : List α) (n : Nat) (h : HeapFrom cmp l n 0) :
    ∀ k, k < n → cmp (nth l k) (nth l 0) ≤ 0 := by
  intro k
  induction k using Nat.strong_induction_on with
  | _ k IHk =>
    intro hk
    rcases Nat.eq_zero_or_pos k with hk0 | hk0
    · rw [hk0]
      exact cmpTotal_refl htot _
    · have hparent : k = 2*((k-1)/2)+1 ∨ k = 2*((k-1)/2)+2 := by omega
      have h1 := h ((k-1)/2) k (by omega) hk hparent
      exact htrans _ _ _ h1 (IHk ((k-1)/2) (by omega) (by omega))

theorem buildLoop_length (cmp : α → α → Int) (n : Nat) :
    ∀ (k : Nat) (l : List α), (buildLoop cmp n l k).length = l.length := by
  intro k
  induction k with
  | zero => intro l; rfl
  | succ k IH =>
    intro l
    rw [buildLoop, IH, heap_sort_sift_down_length]

theorem buildLoop_perm (cmp : α → α → Int) (n : Nat) :
    ∀ (k : Nat) (l : List α), n ≤ l.length → (buildLoop cmp n l k).Perm l := by
  intro k
  induction k with
  | zero => intro l _; exact List.Perm.refl l
  | succ k IH =>
    intro l hn
    rw [buildLoop]
    exact (IH _ (by rw [heap_sort_sift_down_length]; exact hn)).trans
      (heap_sort_sift_down_perm cmp l n k hn)

theorem buildLoop_heap (cmp : α → α → Int)
    (hflip : CmpFlip cmp) (hlt : CmpTransLt cmp) (hlelt : CmpTransLeLt cmp)
    (n : Nat) :
    ∀ (k : Nat) (l : List α), n ≤ l.length → HeapFrom cmp l n k →
    HeapFrom cmp (buildLoop cmp n l k) n 0 := by
  intro k
  induction k with
  | zero => intro l _ h; exact h
  | succ k IH =>
    intro l hn h
    rw [buildLoop]
    exact IH _ (by rw [heap_sort_sift_down_length]; exact hn)
      (heap_sort_sift_down_heap cmp hflip hlt hlelt (n - k) l k n rfl hn h)

/-- Sifting permutes the heap prefix and leaves the rest of the list
unchanged elementwise. -/
theorem heap_sort_sift_down_drop (cmp : α → α → Int) (l : List α)
    (n root : Nat) :
    (heap_sort_sift_down cmp l n root).drop n = l.drop n := by
  apply ext_nth
  · simp [heap_sort_sift_down_length]
  · intro k hk
    rw [nth_drop, nth_drop]
    exact heap_sort_sift_down_unchanged cmp l n root (n+k) (by left; omega)

theorem heap_sort_sift_down_take_perm (cmp : α → α → Int) (l : List α)
    (n root : Nat) (hn : n ≤ l.length) :
    ((heap_sort_sift_down cmp l n root).take n).Perm (l.take n) := by
  have hperm := heap_sort_sift_down_perm cmp l n root hn
  have hdrop := heap_sort_sift_down_drop cmp l n root
  have hperm2 : ((heap_sort_sift_down cmp l n root).take n ++
      (heap_sort_sift_down cmp l n root).drop n).Perm (l.take n ++ l.drop n) := by
    rw [List.take_append_drop, List.take_append_drop]
    exact hperm
  rw [hdrop] at hperm2
  exact (List.perm_append_right_iff _).mp hperm2

theorem mem_take_nth (l : List α) (i : Nat) (x : α)
    (hx : x ∈ l.take i) : ∃ m, m < i ∧ x = nth l m := by
  rcases List.mem_iff_getElem.mp hx with ⟨k, hk, hke⟩
  have hk' : k < i := by
    simp only [List.length_take] at hk
    omega
  exact ⟨k, hk', by rw [← hke, getElem_take_nth]⟩

/-- The extraction loop turns a heap prefix with a sorted dominated
suffix into a fully sorted permutation. -/
theorem extractLoop_spec (cmp : α → α → Int) (htot : CmpTotal cmp)
    (htrans : CmpTrans cmp) (hflip : CmpFlip cmp) (hlt : CmpTransLt cmp)
    (hlelt : CmpTransLeLt cmp) :
    ∀ (i : Nat) (l : List α), i < l.length →
    HeapFrom cmp l (i+1) 0 →
    SortedLe cmp (l.drop (i+1)) →
    (∀ a ∈ l.take (i+1), ∀ b ∈ l.drop (i+1), cmp a b ≤ 0) →
    SortedLe cmp (extractLoop cmp l i) ∧ (extractLoop cmp l i).Perm l := by
  intro i
  induction i with
  | zero =>
    intro l hl hheap hsorted hcross
    rw [extractLoop]
    constructor
    · rw [← List.take_append_drop 1 l, SortedLe, List.pairwise_append]
      refine ⟨?_, hsorted, hcross⟩
      rw [List.pairwise_iff_getElem]
      intro a b ha hb hab
      have : (l.take 1).length ≤ 1 := by
        simp [List.length_take]
      omega
    · exact List.Perm.refl l
  | succ i IHe =>
    intro l hl hheap hsorted hcross
    rw [extractLoop]
    have hlen0 : (lswap l 0 (i+1)).length = l.length := length_lswap l 0 (i+1)
    have hn1 : i + 1 ≤ (lswap l 0 (i+1)).length := by omega
    set l1 := lswap l 0 (i+1) with hl1def
    set l2 := heap_sort_sift_down cmp l1 (i+1) 0 with hl2def
    have hlen2 : l2.length = l.length := by
      rw [hl2def, heap_sort_sift_down_length, hlen0]
    have hmax := heapFrom_root_max cmp htot htrans l (i+2) hheap
    -- values of the swapped prefix
    have hl1nth : ∀ k, k ≤ i → nth l1 k = if k = 0 then nth l (i+1) else nth l k := by
      intro k hk
      rcases eq_or_ne k 0 with hk0 | hk0
      · rw [hk0, if_pos rfl, hl1def, nth_lswap_left l 0 (i+1) (by omega)]
      · rw [if_neg hk0, hl1def, nth_lswap_other l 0 (i+1) k hk0 (by omega)]
    have hl1top : nth l1 (i+1) = nth l 0 := by
      rw [hl1def, nth_lswap_right l 0 (i+1) (by omega)]
    have hl1suffix : ∀ k, i + 1 < k → nth l1 k = nth l k := by
      intro k hk
      rw [hl1def, nth_lswap_other l 0 (i+1) k (by omega) (by omega)]
    -- heap on the shrunken prefix after the sift
    have hheap2 : HeapFrom cmp l2 (i+1) 0 := by
      rw [hl2def]
      refine heap_sort_sift_down_heap cmp hflip hlt hlelt (i+1) l1 0 (i+1) rfl hn1 ?_
      intro a b hab hb hchild
      have hba : a < b := by omega
      have ha1 : a ≤ i := by omega
      rw [hl1nth a (by omega), if_neg (by omega), hl1nth b (by omega),
        if_neg (by omega)]
      exact hheap a b (by omega) (by omega) hchild
    -- the sift only touches the prefix
    have hl2suffix : ∀ k, i + 1 ≤ k → nth l2 k = nth l1 k := by
      intro k hk
      rw [hl2def]
      exact heap_sort_sift_down_unchanged cmp l1 (i+1) 0 k (by left; omega)
    -- the new suffix is the old heap maximum followed by the old suffix
    have hdrop2 : l2.drop (i+1) = nth l 0 :: l.drop (i+1+1) := by
      apply ext_nth
      · simp only [List.length_drop, List.length_cons]
        omega
      · intro k hk
        rw [nth_drop, nth_cons]
        rcases eq_or_ne k 0 with hk0 | hk0
        · rw [if_pos hk0, hk0, hl2suffix (i+1+0) (by omega)]
          simpa using hl1top
        · rw [if_neg hk0, nth_drop, hl2suffix (i+1+k) (by omega),
            hl1suffix (i+1+k) (by omega)]
          congr 1
          omega
    -- every element of the shrunken prefix is dominated by the old maximum
    have hprefix_le : ∀ a ∈ l2.take (i+1), cmp a (nth l 0) ≤ 0 := by
      intro a ha
      have hperm_pre : (l2.take (i+1)).Perm (l1.take (i+1)) := by
        rw [hl2def]
        exact heap_sort_sift_down_take_perm cmp l1 (i+1) 0 hn1
      rcases mem_take_nth l1 (i+1) a (hperm_pre.mem_iff.mp ha) with ⟨m, hm, hma⟩
      rw [hma, hl1nth m (by omega)]
      split
      · exact hmax (i+1) (by omega)
      · exact hmax m (by omega)
    -- old maximum is below the old suffix
    have hmax_le_suffix : ∀ b ∈ l.drop (i+1+1), cmp (nth l 0) b ≤ 0 := by
      intro b hb
      have h0mem : nth l 0 ∈ l.take (i+1+1) :=
        nth_mem_take l (i+1+1) 0 (by omega) (by omega)
      exact hcross (nth l 0) h0mem b hb
    have hsorted2 : SortedLe cmp (l2.drop (i+1)) := by
      rw [hdrop2, SortedLe, List.pairwise_cons]
      exact ⟨fun b hb => hmax_le_suffix b hb, hsorted⟩
    have hcross2 : ∀ a ∈ l2.take (i+1), ∀ b ∈ l2.drop (i+1), cmp a b ≤ 0 := by
      intro a ha b hb
      rw [hdrop2] at hb
      rcases List.mem_cons.mp hb with hb0 | hbs
      · rw [hb0]
        exact hprefix_le a ha
      · exact htrans _ _ _ (hprefix_le a ha) (hmax_le_suffix b hbs)
    have hres := IHe l2 (by omega) hheap2 hsorted2 hcross2
    refine ⟨hres.1, hres.2.trans ?_⟩
    have h21 : l2.Perm l1 := heap_sort_sift_down_perm cmp l1 (i+1) 0 hn1
    have h10 : l1.Perm l := lswap_perm l 0 (i+1) (by omega) (by omega)
    exact h21.trans h10

/-- `heap_sort_impl` sorts: the result is non-decreasing and a
permutation of the input range. -/
theorem heap_sort_impl_correct (cmp : α → α → Int) (htot : CmpTotal cmp)
    (htrans : CmpTrans cmp) (hflip : CmpFlip cmp) (hlt : CmpTransLt cmp)
    (hlelt : CmpTransLeLt cmp) (l : List α) :
    (heap_sort_impl cmp l).Perm l ∧ SortedLe cmp (heap_sort_impl cmp l) := by
  rw [heap_sort_impl]
  by_cases h1 : l.length ≤ 1
  · simp only [if_pos h1]
    refine ⟨List.Perm.refl l, ?_⟩
    match l, h1 with
    | [], _ => exact List.Pairwise.nil
    | [a], _ => exact List.pairwise_singleton _ a
  · simp only [if_neg h1]
    have hn2 : 2 ≤ l.length := by omega
    have hBlen : (buildLoop cmp l.length l (l.length / 2)).length = l.length :=
      buildLoop_length cmp l.length (l.length / 2) l
    have hBperm : (buildLoop cmp l.length l (l.length / 2)).Perm l :=
      buildLoop_perm cmp l.length (l.length / 2) l (le_refl _)
    have hinit : HeapFrom cmp l l.length (l.length / 2) := by
      intro i j hi hj hchild
      omega
    have hBheap : HeapFrom cmp (buildLoop cmp l.length l (l.length / 2))
        l.length 0 :=
      buildLoop_heap cmp hflip hlt hlelt l.length (l.length / 2) l (le_refl _) hinit
    have hn1 : l.length - 1 + 1 = l.length := by omega
    have hdropB : (buildLoop cmp l.length l (l.length / 2)).drop (l.length - 1 + 1) =
        ([] : List α) :=
      List.drop_eq_nil_of_le (by omega)
    have hext := extractLoop_spec cmp htot htrans hflip hlt hlelt (l.length - 1)
      (buildLoop cmp l.length l (l.length / 2)) (by omega)
      (by rw [hn1]; exact hBheap)
      (by rw [hdropB]; exact List.Pairwise.nil)
      (by
        intro a ha b hb
        rw [hdropB] at hb
        exact absurd hb (List.not_mem_nil b))
    exact ⟨hext.2.trans hBperm, hext.1⟩

/-! ### `algo_swap` and `algo_sort` (algo.c:1813-1829, 715-735)

`begin`, `end` and `compare` are C pointers; nullity is modelled by
booleans.  The selector is the integer value of `sort_algorithm_t`
(algo.h:54-59: `SORT_QUICK = 0`, `SORT_MERGE = 1`, `SORT_HEAP = 2`,
`SORT_INSERT = 3`); every other integer falls into the `default` arm. -/

/-- `algo_swap` (algo.c:1813-1829): a `void` function; if either pointer
is NULL, the size is zero, or the temporary-buffer `malloc` fails, it
returns silently with both elements unchanged; otherwise it exchanges the
two values. -/
def algo_swap (allocOk : Bool) (aNull bNull : Bool) (size : Nat) (a b : α) :
    α × α :=
  if aNull || bNull || size = 0 then (a, b)
  else if allocOk then (b, a) else (a, b)

/-- The error code and range returned by `quick_sort_impl` when the
temporary allocation inside `algo_swap` behaves as `swapOk`.  The pivot
copy allocation (algo.c:137) is assumed to succeed, and the
`!iterator_valid(i)` arm (algo.c:167-173) is unreachable because `i`
never passes `last`; on every remaining path `quick_sort_impl` returns
`CSTL_OK` (algo.c:276) regardless of what `algo_swap` did. -/
def quick_sort_call (swapOk : Bool) (cmp : α → α → Int) (l : List α) :
    ErrorCode × List α :=
  (CSTL_OK, quick_sort_impl swapOk cmp l)

/-- `algo_sort` (algo.c:715-735) on the modelled range, with all internal
allocations succeeding (the successful-call model). -/
def algo_sort (beginNull endNull compareNull : Bool) (algorithm : Nat)
    (cmp : α → α → Int) (l : List α) : ErrorCode × List α :=
  if beginNull || endNull || compareNull then (CSTL_ERROR_NULL_POINTER, l)
  else if algorithm = 0 then (CSTL_OK, quick_sort_impl true cmp l)
  else if algorithm = 1 then (CSTL_OK, merge_sort_impl cmp l)
  else if algorithm = 2 then (CSTL_OK, heap_sort_impl cmp l)
  else if algorithm = 3 then (CSTL_OK, insert_sort_impl cmp l)
  else (CSTL_ERROR_INVALID_ARGUMENT, l)

/-! ### Memory pool (common.c:525-700)

Blocks are identified by the addresses the underlying allocator hands
out; the allocator is an oracle `ok : Nat → Bool` indexed by an
allocation counter carried in the pool state: call number `c` succeeds
iff `ok c`, and a successful call returns the fresh address `c`.  The
free list holds block addresses, head first; the atomic counters
`allocated_blocks` / `free_blocks` are plain integers (each pool
operation runs under the pool mutex, so the lock itself needs no
modelling). -/

structure mem_pool_t where
  free_list : List Nat
  block_size : Nat
  grow_size : Nat
  allocated_blocks : Int
  free_blocks : Int
  alloc_ctr : Nat
  deriving Repr, DecidableEq

/-- `mem_pool_create` (common.c:525-568): zero block size or zero growth
is rejected; a new pool has an empty free list and zero counters. -/
def mem_pool_create (block_size grow_size : Nat) : Option mem_pool_t :=
  if block_size = 0 ∨ grow_size = 0 then none
  else some { free_list := [], block_size := block_size, grow_size := grow_size,
              allocated_blocks := 0, free_blocks := 0, alloc_ctr := 0 }

/-- The pre-allocation burst of `mem_pool_alloc` (common.c:636-645): for
`i = 1, ..., grow_size - 1` attempt one more block; each success is
pushed onto the free list and counted.  The last argument counts the
remaining attempts; the result is the new allocation counter, free list
and free-block count. -/
def mem_pool_burst (ok : Nat → Bool) :
    Nat → List Nat → Int → Nat → Nat × List Nat × Int
  | ctr, fl, fb, 0 => (ctr, fl, fb)
  | ctr, fl, fb, k+1 =>
    if ok ctr then mem_pool_burst ok (ctr+1) (ctr :: fl) (fb+1) k
    else mem_pool_burst ok (ctr+1) fl fb k

/-- `mem_pool_alloc` (common.c:610-654) on a non-null pool: pop the free
list head if non-empty; otherwise allocate a first block (failing returns
NULL) plus `grow_size - 1` burst blocks pushed onto the free list, and
return the first block. -/
def mem_pool_alloc (ok : Nat → Bool) (p : mem_pool_t) :
    Option Nat × mem_pool_t :=
  match h : p.free_list with
  | b :: rest =>
    (some b,
     { p with
       free_list := rest,
       free_blocks := p.free_blocks - 1,
       allocated_blocks := p.allocated_blocks + 1 })
  | [] =>
    if ok p.alloc_ctr then
      let r := mem_pool_burst ok (p.alloc_ctr + 1) p.free_list p.free_blocks
        (p.grow_size - 1)
      (some p.alloc_ctr,
       { p with
         free_list := r.2.1,
         free_blocks := r.2.2,
         allocated_blocks := p.allocated_blocks + 1,
         alloc_ctr := r.1 })
    else (none, { p with alloc_ctr := p.alloc_ctr + 1 })

/-- `mem_pool_free` (common.c:662-684) on a non-null pool and pointer:
push the block onto the free list and update the counters. -/
def mem_pool_free (p : mem_pool_t) (b : Nat) : mem_pool_t :=
  { p with
    free_list := b :: p.free_list,
    free_blocks := p.free_blocks + 1,
    allocated_blocks := p.allocated_blocks - 1 }

/-- A sequence of `n` `mem_pool_alloc` calls, collecting the returned
block addresses in order. -/
def mem_pool_allocN (ok : Nat → Bool) : Nat → mem_pool_t → List Nat × mem_pool_t
  | 0, p => ([], p)
  | n+1, p =>
    match mem_pool_alloc ok p with
    | (some b, p') =>
      let rest := mem_pool_allocN ok n p'
      (b :: rest.1, rest.2)
    | (none, p') => mem_pool_allocN ok n p'

/-- `mem_pool_free` applied to a list of pointers, first to last. -/
def mem_pool_freeN : List Nat → mem_pool_t → mem_pool_t
  | [], p => p
  | b :: bs, p => mem_pool_freeN bs (mem_pool_free p b)

theorem mem_pool_burst_all_ok (ok : Nat → Bool) (hok : ∀ c, ok c = true) :
    ∀ (k ctr : Nat) (fl : List Nat) (fb : Int),
    (mem_pool_burst ok ctr fl fb k).2.1.length = fl.length + k ∧
    (mem_pool_burst ok ctr fl fb k).2.2 = fb + k := by
  intro k
  induction k with
  | zero =>
    intro ctr fl fb
    exact ⟨rfl, by simp [mem_pool_burst]⟩
  | succ k IH =>
    intro ctr fl fb
    rw [mem_pool_burst, hok ctr]
    simp only [if_true]
    have h := IH (ctr+1) (ctr :: fl) (fb+1)
    refine ⟨by rw [h.1]; simp; omega, by rw [h.2]; push_cast; ring⟩

theorem mem_pool_alloc_pop (ok : Nat → Bool) (p : mem_pool_t) (b : Nat)
    (rest : List Nat) (h : p.free_list = b :: rest) :
    mem_pool_alloc ok p = (some b,
      { p with
        free_list := rest,
        free_blocks := p.free_blocks - 1,
        allocated_blocks := p.allocated_blocks + 1 }) := by
  rw [mem_pool_alloc]
  split
  · next b' rest' heq =>
    rw [h] at heq
    injection heq with h1 h2
    rw [h1, h2]
  · next heq =>
    rw [h] at heq
    simp at heq

theorem mem_pool_alloc_grow (ok : Nat → Bool) (p : mem_pool_t)
    (h : p.free_list = []) (hok : ok p.alloc_ctr = true) :
    mem_pool_alloc ok p = (some p.alloc_ctr,
      { p with
        free_list := (mem_pool_burst ok (p.alloc_ctr + 1) p.free_list
          p.free_blocks (p.grow_size - 1)).2.1,
        free_blocks := (mem_pool_burst ok (p.alloc_ctr + 1) p.free_list
          p.free_blocks (p.grow_size - 1)).2.2,
        allocated_blocks := p.allocated_blocks + 1,
        alloc_ctr := (mem_pool_burst ok (p.alloc_ctr + 1) p.free_list
          p.free_blocks (p.grow_size - 1)).1 }) := by
  rw [mem_pool_alloc]
  split
  · next b' rest' heq =>
    rw [h] at heq
    simp at heq
  · next heq =>
    rw [if_pos hok]
  -- note: the match arm already carries `p.free_list = []`

theorem mem_pool_alloc_fail (ok : Nat → Bool) (p : mem_pool_t)
    (h : p.free_list = []) (hok : ok p.alloc_ctr = false) :
    mem_pool_alloc ok p = (none, { p with alloc_ctr := p.alloc_ctr + 1 }) := by
  rw [mem_pool_alloc]
  split
  · next b' rest' heq =>
    rw [h] at heq
    simp at heq
  · next heq =>
    rw [hok]
    simp

theorem mem_pool_allocN_pop (ok : Nat → Bool) :
    ∀ (N : Nat) (p : mem_pool_t), N ≤ p.free_list.length →
    (mem_pool_allocN ok N p).1 = p.free_list.take N ∧
    (mem_pool_allocN ok N p).2.free_list = p.free_list.drop N ∧
    (mem_pool_allocN ok N p).2.free_blocks = p.free_blocks - N ∧
    (mem_pool_allocN ok N p).2.grow_size = p.grow_size ∧
    (mem_pool_allocN ok N p).2.alloc_ctr = p.alloc_ctr := by
  intro N
  induction N with
  | zero =>
    intro p hN
    rw [mem_pool_allocN]
    exact ⟨rfl, rfl, by simp, rfl, rfl⟩
  | succ N IH =>
    intro p hN
    match hfl : p.free_list with
    | [] =>
      rw [hfl] at hN
      simp at hN
    | b :: rest =>
      rw [mem_pool_allocN, mem_pool_alloc_pop ok p b rest hfl]
      have hres := IH { p with
        free_list := rest,
        free_blocks := p.free_blocks - 1,
        allocated_blocks := p.allocated_blocks + 1 } (by
          simp only
          rw [hfl] at hN
          simp at hN
          omega)
      simp only at hres
      dsimp only
      refine ⟨?_, ?_, ?_, ?_, ?_⟩
      · simp only [List.take_succ_cons]
        rw [hres.1]
      · simp only [List.drop_succ_cons]
        exact hres.2.1
      · rw [hres.2.2.1]
        push_cast
        ring
      · exact hres.2.2.2.1
      · exact hres.2.2.2.2

theorem mem_pool_freeN_spec :
    ∀ (bs : List Nat) (p : mem_pool_t),
    (mem_pool_freeN bs p).free_list = bs.reverse ++ p.free_list ∧
    (mem_pool_freeN bs p).free_blocks = p.free_blocks + bs.length ∧
    (mem_pool_freeN bs p).grow_size = p.grow_size ∧
    (mem_pool_freeN bs p).alloc_ctr = p.alloc_ctr := by
  intro bs
  induction bs with
  | nil =>
    intro p
    rw [mem_pool_freeN]
    exact ⟨by simp, by simp, rfl, rfl⟩
  | cons b bs IH =>
    intro p
    rw [mem_pool_freeN]
    have hres := IH (mem_pool_free p b)
    refine ⟨?_, ?_, ?_, ?_⟩
    · rw [hres.1, mem_pool_free]
      simp
    · rw [hres.2.1, mem_pool_free]
      simp only [List.length_cons]
      push_cast
      ring
    · rw [hres.2.2.1, mem_pool_free]
    · rw [hres.2.2.2, mem_pool_free]

/-! ### Object pool (common.c:716-923)

The free-pointer array is modelled as a list whose length is the array's
capacity; the `count` used slots sit at indices `[0, count)`.  Object
allocations go through the same success oracle / counter scheme as the
memory pool; `reallocOk` tells whether a `reallocate` of the pointer
array succeeds. -/

structure obj_pool_t where
  free_list : List Nat
  count : Nat
  obj_size : Nat
  grow_size : Nat
  allocated_objects : Int
  free_objects : Int
  obj_ctr : Nat
  deriving Repr, DecidableEq

/-- The object-filling loop shared by `obj_pool_create` (common.c:771-777)
and `obj_pool_alloc` (common.c:855-861): attempt the given number of
object allocations, storing each success at index `count` and bumping the
count and free counter. -/
def obj_pool_fill (ok : Nat → Bool) :
    Nat → List Nat → Nat → Int → Nat → Nat × List Nat × Nat × Int
  | ctr, arr, cnt, fo, 0 => (ctr, arr, cnt, fo)
  | ctr, arr, cnt, fo, k+1 =>
    if ok ctr then obj_pool_fill ok (ctr+1) (arr.set cnt ctr) (cnt+1) (fo+1) k
    else obj_pool_fill ok (ctr+1) arr cnt fo k

/-- `obj_pool_create` (common.c:716-782): zero object size, initial size
or growth is rejected; the free-pointer array gets `initial_size` slots
and the pre-allocation loop fills it. -/
def obj_pool_create (ok : Nat → Bool) (obj_size initial_size grow_size : Nat) :
    Option obj_pool_t :=
  if obj_size = 0 ∨ initial_size = 0 ∨ grow_size = 0 then none
  else
    let r := obj_pool_fill ok 0 (List.replicate initial_size 0) 0 0 initial_size
    some { free_list := r.2.1, count := r.2.2.1, obj_size := obj_size,
           grow_size := grow_size, allocated_objects := 0,
           free_objects := r.2.2.2, obj_ctr := r.1 }

/-- `obj_pool_alloc` (common.c:827-881): pop the last free pointer if
`count > 0`; otherwise grow the pointer array by `grow_size` slots (a
failed reallocation returns NULL), fill with up to `grow_size` new
objects, and pop again if anything was produced. -/
def obj_pool_alloc (ok : Nat → Bool) (reallocOk : Bool) (p : obj_pool_t) :
    Option Nat × obj_pool_t :=
  if 0 < p.count then
    (some (nth p.free_list (p.count - 1)),
     { p with
       count := p.count - 1,
       free_objects := p.free_objects - 1,
       allocated_objects := p.allocated_objects + 1 })
  else if reallocOk then
    let r := obj_pool_fill ok p.obj_ctr
      (p.free_list ++ List.replicate p.grow_size 0) p.count p.free_objects
      p.grow_size
    if 0 < r.2.2.1 then
      (some (nth r.2.1 (r.2.2.1 - 1)),
       { p with
         free_list := r.2.1,
         count := r.2.2.1 - 1,
         free_objects := r.2.2.2 - 1,
         obj_ctr := r.1,
         allocated_objects := p.allocated_objects + 1 })
    else
      (none,
       { p with
         free_list := r.2.1,
         count := r.2.2.1,
         free_objects := r.2.2.2,
         obj_ctr := r.1 })
  else (none, p)

/-- `obj_pool_free` (common.c:889-923) on a non-null pool and object: if
the free array is full, first try to grow it by `grow_size` slots; then
push the pointer if a slot is available, otherwise destroy the object
(destructor, if any, plus deallocation — reported by the `Bool`). -/
def obj_pool_free (reallocOk : Bool) (p : obj_pool_t) (obj : Nat) :
    Bool × obj_pool_t :=
  let p1 := if p.free_list.length ≤ p.count then
              (if reallocOk then
                { p with free_list := p.free_list ++ List.replicate p.grow_size 0 }
               else p)
            else p
  if p1.count < p1.free_list.length then
    (false,
     { p1 with
       free_list := p1.free_list.set p1.count obj,
       count := p1.count + 1,
       allocated_objects := p1.allocated_objects - 1,
       free_objects := p1.free_objects + 1 })
  else
    (true, p1)

theorem obj_pool_fill_bounds (ok : Nat → Bool) :
    ∀ (k ctr cnt : Nat) (arr : List Nat) (fo : Int),
    (obj_pool_fill ok ctr arr cnt fo k).2.1.length = arr.length ∧
    (obj_pool_fill ok ctr arr cnt fo k).2.2.1 ≤ cnt + k := by
  intro k
  induction k with
  | zero =>
    intro ctr cnt arr fo
    rw [obj_pool_fill]
    exact ⟨rfl, by simp⟩
  | succ k IH =>
    intro ctr cnt arr fo
    rw [obj_pool_fill]
    split
    · have h := IH (ctr+1) (cnt+1) (arr.set cnt ctr) (fo+1)
      refine ⟨by rw [h.1]; simp, by omega⟩
    · have h := IH (ctr+1) cnt arr fo
      exact ⟨h.1, by omega⟩

/-! ### Vector iterators (vector.c:23-168, 863-942; iterator.c:188-197)

A vector is reduced to the fields its iterator functions consult: the
data-buffer address, the element count and the element size.  An iterator
carries the container pointer (an identity), the raw `current` byte
address (`none` models NULL) and the cached index.  `iterator_equal`
compares the container pointer and the `current` pointer — not the
index. -/

structure vector_t where
  dataAddr : Nat
  size : Nat
  element_size : Nat
  deriving Repr, DecidableEq

structure vector_iterator_t where
  container : Nat
  current : Option Nat
  index : Nat
  deriving Repr, DecidableEq

/-- `iterator_equal` (iterator.c:188-197) on two non-null iterators:
same container pointer and same `current` pointer. -/
def iterator_equal (a b : vector_iterator_t) : Bool :=
  a.container == b.container && a.current == b.current

/-- `vector_iterator_create` in the forward direction (vector.c:863-901):
index 0; `current` points at the data buffer iff the vector is
non-empty. -/
def vector_iterator_create (cid : Nat) (v : vector_t) : vector_iterator_t :=
  { container := cid, index := 0,
    current := if 0 < v.size then some v.dataAddr else none }

/-- `vector_begin` (vector.c:909-916). -/
def vector_begin (cid : Nat) (v : vector_t) : vector_iterator_t :=
  vector_iterator_create cid v

/-- `vector_end` (vector.c:924-942): a forward iterator forced to index
`size` with a NULL `current`. -/
def vector_end (cid : Nat) (v : vector_t) : vector_iterator_t :=
  { vector_iterator_create cid v with index := v.size, current := none }

/-- `vector_iterator_next` (vector.c:34-52): past-the-end refuses with
`CSTL_ERROR_ITERATOR_END`; otherwise the index advances and `current` is
recomputed as `data + index * element_size` — note that stepping from the
last element to index `size` leaves a non-null `current`. -/
def vector_iterator_next (v : vector_t) (it : vector_iterator_t) :
    ErrorCode × vector_iterator_t :=
  if v.size ≤ it.index then (CSTL_ERROR_ITERATOR_END, it)
  else
    (CSTL_OK,
     { it with
       index := it.index + 1,
       current := some (v.dataAddr + (it.index + 1) * v.element_size) })

/-- `vector_iterator_valid` (vector.c:108-118). -/
def vector_iterator_valid (v : vector_t) (it : vector_iterator_t) : Bool :=
  it.index < v.size

/-! ### The claims -/

/-- C1: for every range and each of the four algorithm selectors
(`SORT_QUICK = 0`, `SORT_MERGE = 1`, `SORT_HEAP = 2`, `SORT_INSERT = 3`),
a successful `algo_sort` call returns `CSTL_OK` and leaves the range
non-decreasing with respect to the comparator and a permutation of the
original multiset of element values (a permutation has the same multiset
and the same length). -/
theorem C1_algo_sort_sorts (cmp : α → α → Int) (htot : CmpTotal cmp)
    (htrans : CmpTrans cmp) (hflip : CmpFlip cmp) (hlt : CmpTransLt cmp)
    (hlelt : CmpTransLeLt cmp) (alg : Nat) (halg : alg < 4) (l : List α) :
    (algo_sort false false false alg cmp l).1 = CSTL_OK ∧
    SortedLe cmp (algo_sort false false false alg cmp l).2 ∧
    ((algo_sort false false false alg cmp l).2).Perm l := by
  have hc : alg = 0 ∨ alg = 1 ∨ alg = 2 ∨ alg = 3 := by omega
  rcases hc with h | h | h | h <;> rw [h]
  · exact ⟨rfl, quick_sort_impl_sorted cmp htot htrans l, quick_sort_impl_perm cmp l⟩
  · exact ⟨rfl, merge_sort_impl_sorted cmp htot htrans l, merge_sort_impl_perm cmp l⟩
  · have hh := heap_sort_impl_correct cmp htot htrans hflip hlt hlelt l
    exact ⟨rfl, hh.2, hh.1⟩
  · have hh := insert_sort_impl_correct cmp htot htrans l
    exact ⟨rfl, hh.2, hh.1⟩

theorem C1_witness :
    (algo_sort false false false 2 intCmp ([3, 1, 2] : List Int)).1 = CSTL_OK ∧
    SortedLe intCmp (algo_sort false false false 2 intCmp ([3, 1, 2] : List Int)).2 ∧
    ((algo_sort false false false 2 intCmp ([3, 1, 2] : List Int)).2).Perm [3, 1, 2] :=
  C1_algo_sort_sorts intCmp intCmp_total intCmp_trans intCmp_flip intCmp_translt
    intCmp_translelt 2 (by decide) [3, 1, 2]

/-- C2: sorting with `SORT_MERGE` or `SORT_INSERT` is stable.  On key-tag
pairs whose tags record the original positions (strictly increasing), the
sorted output keeps every pair of equal-key elements in increasing tag
order — equal elements retain their original relative order. -/
theorem C2_merge_insert_stable (cmp : α → α → Int) (htrans : CmpTrans cmp)
    (hflip : CmpFlip cmp) (hlt : CmpTransLt cmp) (l : List (α × Nat))
    (htags : List.Pairwise (fun a b => a.2 < b.2) l) :
    StableOrd cmp (algo_sort false false false 1 (tagCmp cmp) l).2 ∧
    StableOrd cmp (algo_sort false false false 3 (tagCmp cmp) l).2 :=
  ⟨(merge_sort_impl_stab cmp htrans hflip hlt l htags).stableOrd,
   (insert_sort_impl_stab cmp htrans hflip l htags).stableOrd⟩

theorem C2_witness :
    StableOrd intCmp (algo_sort false false false 1 (tagCmp intCmp)
      ([(2, 0), (1, 1), (2, 2), (1, 3)] : List (Int × Nat))).2 ∧
    StableOrd intCmp (algo_sort false false false 3 (tagCmp intCmp)
      ([(2, 0), (1, 1), (2, 2), (1, 3)] : List (Int × Nat))).2 :=
  C2_merge_insert_stable intCmp intCmp_trans intCmp_flip intCmp_translt
    [(2, 0), (1, 1), (2, 2), (1, 3)] (by decide)

/-- C8: `algo_sort` returns `CSTL_ERROR_NULL_POINTER` when `begin`, `end`
or the comparator is NULL, `CSTL_ERROR_INVALID_ARGUMENT` when the
selector is not one of the four known ids, and in both failure cases the
range comes back unmutated. -/
theorem C8_algo_sort_validates (bN eN cN : Bool) (alg : Nat)
    (cmp : α → α → Int) (l : List α) :
    ((bN || eN || cN) = true →
      algo_sort bN eN cN alg cmp l = (CSTL_ERROR_NULL_POINTER, l)) ∧
    ((bN || eN || cN) = false → 4 ≤ alg →
      algo_sort bN eN cN alg cmp l = (CSTL_ERROR_INVALID_ARGUMENT, l)) := by
  constructor
  · intro h
    rw [algo_sort, if_pos h]
  · intro h halg
    rw [algo_sort, if_neg (by rw [h]; simp)]
    obtain ⟨n, rfl⟩ : ∃ n, alg = n + 4 := ⟨alg - 4, by omega⟩
    rfl

theorem C8_witness :
    algo_sort true false false 0 intCmp ([1] : List Int) =
      (CSTL_ERROR_NULL_POINTER, [1]) ∧
    algo_sort false false false 7 intCmp ([2, 1] : List Int) =
      (CSTL_ERROR_INVALID_ARGUMENT, [2, 1]) :=
  ⟨(C8_algo_sort_validates true false false 0 intCmp [1]).1 rfl,
   (C8_algo_sort_validates false false false 7 intCmp [2, 1]).2 rfl (by omega)⟩

/-- C10: `algo_swap` is a silent no-op — it returns `void` and leaves both
elements unchanged — whenever either element pointer is NULL, the size is
0, or its temporary allocation fails; consequently quicksort, which swaps
through it, returns `CSTL_OK` on `[2, 1]` without reordering the range
when the swap allocation fails mid-sort. -/
theorem C10_algo_swap_silent_noop :
    (∀ (allocOk aNull bNull : Bool) (size : Nat) (a b : α),
      aNull = true ∨ bNull = true ∨ size = 0 ∨ allocOk = false →
      algo_swap allocOk aNull bNull size a b = (a, b)) ∧
    quick_sort_call false intCmp [2, 1] = (CSTL_OK, [2, 1]) := by
  constructor
  · intro allocOk aN bN size a b h
    rw [algo_swap]
    rcases h with h | h | h | h
    · rw [h]
      simp
    · rw [h]
      simp
    · rw [h]
      simp
    · rw [h]
      split
      · rfl
      · rfl
  · rw [quick_sort_call]
    norm_num
    simp [quick_sort_impl, quick_sort_partition, partitionLoop, lswap, nth, intCmp]

theorem C10_witness :
    algo_swap false false false 4 (5 : Int) 7 = (5, 7) ∧
    quick_sort_call false intCmp [2, 1] = (CSTL_OK, [2, 1]) :=
  ⟨(C10_algo_swap_silent_noop (α := Int)).1 false false false 4 5 7
      (Or.inr (Or.inr (Or.inr rfl))),
   (C10_algo_swap_silent_noop (α := Int)).2⟩

/-- C3: `mem_pool_alloc` on a non-null pool pops and returns the
free-list head when the free list is non-empty; on an empty free list it
allocates one block plus `grow_size - 1` extras in a single burst, pushes
the extras onto the free list and returns the first block; it returns
NULL exactly when the free list is empty and the underlying allocator
fails for that first block. -/
theorem C3_mem_pool_alloc (ok : Nat → Bool) (p : mem_pool_t) :
    (∀ b rest, p.free_list = b :: rest →
      (mem_pool_alloc ok p).1 = some b ∧
      (mem_pool_alloc ok p).2.free_list = rest ∧
      (mem_pool_alloc ok p).2.free_blocks = p.free_blocks - 1) ∧
    (p.free_list = [] → (∀ c, ok c = true) →
      (mem_pool_alloc ok p).1 = some p.alloc_ctr ∧
      (mem_pool_alloc ok p).2.free_list.length = p.grow_size - 1 ∧
      (mem_pool_alloc ok p).2.free_blocks =
        p.free_blocks + ((p.grow_size - 1 : Nat) : Int)) ∧
    ((mem_pool_alloc ok p).1 = none ↔
      p.free_list = [] ∧ ok p.alloc_ctr = false) := by
  refine ⟨?_, ?_, ?_⟩
  · intro b rest h
    rw [mem_pool_alloc_pop ok p b rest h]
    exact ⟨rfl, rfl, rfl⟩
  · intro h hok
    rw [mem_pool_alloc_grow ok p h (hok _)]
    have hb := mem_pool_burst_all_ok ok hok (p.grow_size - 1) (p.alloc_ctr + 1)
      p.free_list p.free_blocks
    refine ⟨rfl, ?_, ?_⟩
    · rw [hb.1, h]
      simp
    · exact hb.2
  · constructor
    · intro hnone
      match hfl : p.free_list with
      | b :: rest =>
        rw [mem_pool_alloc_pop ok p b rest hfl] at hnone
        simp at hnone
      | [] =>
        refine ⟨rfl, ?_⟩
        by_cases hok : ok p.alloc_ctr = true
        · rw [mem_pool_alloc_grow ok p hfl hok] at hnone
          simp at hnone
        · simp at hok
          exact hok
    · intro ⟨hfl, hok⟩
      rw [mem_pool_alloc_fail ok p hfl hok]

theorem C3_witness :
    ((mem_pool_alloc (fun _ => true)
        { free_list := [9, 5], block_size := 64, grow_size := 4,
          allocated_blocks := 0, free_blocks := 2, alloc_ctr := 10 }).1 = some 9 ∧
      (mem_pool_alloc (fun _ => true)
        { free_list := [9, 5], block_size := 64, grow_size := 4,
          allocated_blocks := 0, free_blocks := 2, alloc_ctr := 10 }).2.free_list = [5] ∧
      (mem_pool_alloc (fun _ => true)
        { free_list := [9, 5], block_size := 64, grow_size := 4,
          allocated_blocks := 0, free_blocks := 2, alloc_ctr := 10 }).2.free_blocks = 2 - 1) ∧
    ((mem_pool_alloc (fun _ => true)
        { free_list := [], block_size := 64, grow_size := 4,
          allocated_blocks := 0, free_blocks := 0, alloc_ctr := 0 }).1 = some 0 ∧
      (mem_pool_alloc (fun _ => true)
        { free_list := [], block_size := 64, grow_size := 4,
          allocated_blocks := 0, free_blocks := 0, alloc_ctr := 0 }).2.free_list.length = 4 - 1 ∧
      (mem_pool_alloc (fun _ => true)
        { free_list := [], block_size := 64, grow_size := 4,
          allocated_blocks := 0, free_blocks := 0, alloc_ctr := 0 }).2.free_blocks =
          0 + (((4 : Nat) - 1 : Nat) : Int)) :=
  ⟨(C3_mem_pool_alloc (fun _ => true)
      { free_list := [9, 5], block_size := 64, grow_size := 4,
        allocated_blocks := 0, free_blocks := 2, alloc_ctr := 10 }).1 9 [5] rfl,
   (C3_mem_pool_alloc (fun _ => true)
      { free_list := [], block_size := 64, grow_size := 4,
        allocated_blocks := 0, free_blocks := 0, alloc_ctr := 0 }).2.1 rfl
      (fun _ => rfl)⟩

/-- C5 as stated is false: on a fresh pool with growth 4 and an empty free
list, one `mem_pool_alloc` triggers a growth burst (three extra blocks
pushed), so after the alloc and the matching free the free-block count is
4, not the pre-sequence value 0. -/
theorem C5_counterexample :
    mem_pool_create 64 4 = some
      { free_list := [], block_size := 64, grow_size := 4,
        allocated_blocks := 0, free_blocks := 0, alloc_ctr := 0 } ∧
    (mem_pool_freeN
      (mem_pool_allocN (fun _ => true) 1
        { free_list := [], block_size := 64, grow_size := 4,
          allocated_blocks := 0, free_blocks := 0, alloc_ctr := 0 }).1
      (mem_pool_allocN (fun _ => true) 1
        { free_list := [], block_size := 64, grow_size := 4,
          allocated_blocks := 0, free_blocks := 0, alloc_ctr := 0 }).2).free_blocks =
      (4 : Int) := by
  constructor
  · rfl
  · decide

/-- C5 (amended): when `N` does not exceed the pool's current free-block
count — so no growth burst is triggered — a sequence of `N` allocations
followed by `N` frees of the returned pointers restores the free-block
count to its pre-sequence value, and for `N ≥ 1` a `mem_pool_alloc`
performed afterwards returns one of the previously freed pointers rather
than a fresh block. -/
theorem C5_mem_pool_roundtrip (ok : Nat → Bool) (p : mem_pool_t) (N : Nat)
    (hN : N ≤ p.free_list.length) :
    (mem_pool_freeN (mem_pool_allocN ok N p).1 (mem_pool_allocN ok N p).2).free_blocks
      = p.free_blocks ∧
    (1 ≤ N → ∃ b, b ∈ (mem_pool_allocN ok N p).1 ∧
      (mem_pool_alloc ok (mem_pool_freeN (mem_pool_allocN ok N p).1
        (mem_pool_allocN ok N p).2)).1 = some b) := by
  obtain ⟨htake, hdrop, hfb, hgrow, hctr⟩ := mem_pool_allocN_pop ok N p hN
  obtain ⟨hffl, hffb, hfgrow, hfctr⟩ :=
    mem_pool_freeN_spec (mem_pool_allocN ok N p).1 (mem_pool_allocN ok N p).2
  have htlen : (p.free_list.take N).length = N := by
    simp only [List.length_take]
    omega
  constructor
  · rw [hffb, hfb, htake, htlen]
    ring
  · intro hN1
    have hfl : (mem_pool_freeN (mem_pool_allocN ok N p).1
        (mem_pool_allocN ok N p).2).free_list =
        (p.free_list.take N).reverse ++ p.free_list.drop N := by
      rw [hffl, htake, hdrop]
    match hrev : (p.free_list.take N).reverse with
    | [] =>
      exfalso
      have := congrArg List.length hrev
      simp [htlen] at this
      omega
    | c :: cs =>
      refine ⟨c, ?_, ?_⟩
      · rw [htake, ← List.mem_reverse, hrev]
        exact List.mem_cons_self c cs
      · rw [mem_pool_alloc_pop ok _ c (cs ++ p.free_list.drop N)
          (by rw [hfl, hrev]; rfl)]

theorem C5_witness :
    2 ≤ ([7, 8] : List Nat).length ∧
    ((mem_pool_freeN (mem_pool_allocN (fun _ => true) 2
        { free_list := [7, 8], block_size := 16, grow_size := 4,
          allocated_blocks := 0, free_blocks := 2, alloc_ctr := 2 }).1
      (mem_pool_allocN (fun _ => true) 2
        { free_list := [7, 8], block_size := 16, grow_size := 4,
          allocated_blocks := 0, free_blocks := 2, alloc_ctr := 2 }).2).free_blocks
        = 2 ∧
     (1 ≤ 2 → ∃ b, b ∈ (mem_pool_allocN (fun _ => true) 2
        { free_list := [7, 8], block_size := 16, grow_size := 4,
          allocated_blocks := 0, free_blocks := 2, alloc_ctr := 2 }).1 ∧
      (mem_pool_alloc (fun _ => true)
        (mem_pool_freeN (mem_pool_allocN (fun _ => true) 2
          { free_list := [7, 8], block_size := 16, grow_size := 4,
            allocated_blocks := 0, free_blocks := 2, alloc_ctr := 2 }).1
         (mem_pool_allocN (fun _ => true) 2
          { free_list := [7, 8], block_size := 16, grow_size := 4,
            allocated_blocks := 0, free_blocks := 2, alloc_ctr := 2 }).2)).1
        = some b)) :=
  ⟨by decide,
   C5_mem_pool_roundtrip (fun _ => true)
     { free_list := [7, 8], block_size := 16, grow_size := 4,
       allocated_blocks := 0, free_blocks := 2, alloc_ctr := 2 } 2 (by decide)⟩

/-- C4 as stated is false: with the free-pointer array full
(count = capacity = 1) and a succeeding reallocation, `obj_pool_free`
grows the array to capacity 3 and pushes the pointer instead of
destroying the object. -/
theorem C4_counterexample :
    (obj_pool_free true
      { free_list := [5], count := 1, obj_size := 8, grow_size := 2,
        allocated_objects := 1, free_objects := 1, obj_ctr := 1 } 9).1 = false ∧
    (obj_pool_free true
      { free_list := [5], count := 1, obj_size := 8, grow_size := 2,
        allocated_objects := 1, free_objects := 1, obj_ctr := 1 } 9).2.free_list.length = 3 ∧
    (obj_pool_free true
      { free_list := [5], count := 1, obj_size := 8, grow_size := 2,
        allocated_objects := 1, free_objects := 1, obj_ctr := 1 } 9).2.count = 2 := by
  decide

/-- C4 (amended): `obj_pool_free` pushes the pointer when the free array
has spare capacity; when the array is full it first attempts to grow the
array by `grow_size` slots and pushes onto the grown array; only when
that reallocation fails is the object immediately destroyed (destructor,
if set, then deallocation) with the pool left unchanged. -/
theorem C4_obj_pool_free (reallocOk : Bool) (p : obj_pool_t) (obj : Nat) :
    (p.count < p.free_list.length →
      (obj_pool_free reallocOk p obj).1 = false ∧
      (obj_pool_free reallocOk p obj).2.count = p.count + 1 ∧
      (obj_pool_free reallocOk p obj).2.free_list = p.free_list.set p.count obj) ∧
    (p.free_list.length ≤ p.count → reallocOk = true →
      p.count < p.free_list.length + p.grow_size →
      (obj_pool_free reallocOk p obj).1 = false ∧
      (obj_pool_free reallocOk p obj).2.free_list.length =
        p.free_list.length + p.grow_size ∧
      (obj_pool_free reallocOk p obj).2.count = p.count + 1) ∧
    (p.free_list.length ≤ p.count → reallocOk = false →
      (obj_pool_free reallocOk p obj).1 = true ∧
      (obj_pool_free reallocOk p obj).2 = p) := by
  refine ⟨?_, ?_, ?_⟩
  · intro h
    rw [obj_pool_free]
    simp [if_neg (not_le.mpr h), if_pos h]
  · intro h hre hroom
    rw [obj_pool_free, hre]
    simp only [if_pos h, if_true]
    have hlen : (p.free_list ++ List.replicate p.grow_size 0).length =
        p.free_list.length + p.grow_size := by
      simp
    rw [if_pos (by rw [hlen]; omega)]
    refine ⟨rfl, ?_, rfl⟩
    simp
  · intro h hre
    rw [obj_pool_free, hre]
    simp only [if_pos h, Bool.false_eq_true, if_false]
    rw [if_neg (by omega)]
    exact ⟨rfl, rfl⟩

theorem C4_witness :
    ((obj_pool_free true
        { free_list := [5, 0], count := 1, obj_size := 8, grow_size := 2,
          allocated_objects := 1, free_objects := 1, obj_ctr := 2 } 9).1 = false ∧
      (obj_pool_free true
        { free_list := [5, 0], count := 1, obj_size := 8, grow_size := 2,
          allocated_objects := 1, free_objects := 1, obj_ctr := 2 } 9).2.count = 1 + 1 ∧
      (obj_pool_free true
        { free_list := [5, 0], count := 1, obj_size := 8, grow_size := 2,
          allocated_objects := 1, free_objects := 1, obj_ctr := 2 } 9).2.free_list =
        [5, 0].set 1 9) ∧
    ((obj_pool_free false
        { free_list := [5], count := 1, obj_size := 8, grow_size := 2,
          allocated_objects := 1, free_objects := 1, obj_ctr := 1 } 9).1 = true ∧
      (obj_pool_free false
        { free_list := [5], count := 1, obj_size := 8, grow_size := 2,
          allocated_objects := 1, free_objects := 1, obj_ctr := 1 } 9).2 =
        { free_list := [5], count := 1, obj_size := 8, grow_size := 2,
          allocated_objects := 1, free_objects := 1, obj_ctr := 1 }) :=
  ⟨(C4_obj_pool_free true
      { free_list := [5, 0], count := 1, obj_size := 8, grow_size := 2,
        allocated_objects := 1, free_objects := 1, obj_ctr := 2 } 9).1 (by decide),
   (C4_obj_pool_free false
      { free_list := [5], count := 1, obj_size := 8, grow_size := 2,
        allocated_objects := 1, free_objects := 1, obj_ctr := 1 } 9).2.2
      (by decide) rfl⟩

/-- C9: every object-pool operation keeps `count ≤ capacity`, where the
capacity is the free-pointer array's length; in this embedding the
`count` live free pointers are by construction the array entries at
indices `[0, count)`. -/
theorem C9_obj_pool_invariant (ok : Nat → Bool) (reallocOk : Bool) :
    (∀ os is gs (p : obj_pool_t), obj_pool_create ok os is gs = some p →
      p.count ≤ p.free_list.length) ∧
    (∀ p : obj_pool_t, p.count ≤ p.free_list.length →
      (obj_pool_alloc ok reallocOk p).2.count ≤
        (obj_pool_alloc ok reallocOk p).2.free_list.length) ∧
    (∀ (p : obj_pool_t) (obj : Nat), p.count ≤ p.free_list.length →
      (obj_pool_free reallocOk p obj).2.count ≤
        (obj_pool_free reallocOk p obj).2.free_list.length) := by
  refine ⟨?_, ?_, ?_⟩
  · intro os is gs p hp
    rw [obj_pool_create] at hp
    split at hp
    · simp at hp
    · simp only [Option.some.injEq] at hp
      have hfill := obj_pool_fill_bounds ok is 0 0 (List.replicate is 0) 0
      rw [← hp]
      simp only
      rw [hfill.1]
      simp only [List.length_replicate]
      omega
  · intro p hwf
    rw [obj_pool_alloc]
    split
    · dsimp only
      omega
    · split
      · next hcnt hre =>
        have hfill := obj_pool_fill_bounds ok p.grow_size p.obj_ctr p.count
          (p.free_list ++ List.replicate p.grow_size 0) p.free_objects
        dsimp only
        split
        · dsimp only
          rw [hfill.1]
          simp only [List.length_append, List.length_replicate]
          omega
        · dsimp only
          rw [hfill.1]
          simp only [List.length_append, List.length_replicate]
          omega
      · exact hwf
  · intro p obj hwf
    rw [obj_pool_free]
    by_cases hfull : p.free_list.length ≤ p.count
    · cases reallocOk with
      | false =>
        simp only [if_pos hfull, Bool.false_eq_true, if_false]
        split
        · next hpush =>
          simp only [List.length_set]
          omega
        · next hnopush =>
          exact hwf
      | true =>
        simp only [if_pos hfull, eq_self_iff_true, if_true, List.length_append,
          List.length_replicate]
        split
        · next hpush =>
          simp only [List.length_set, List.length_append, List.length_replicate]
          omega
        · next hnopush =>
          simp only [List.length_append, List.length_replicate]
          omega
    · simp only [if_neg hfull]
      split
      · next hpush =>
        simp only [List.length_set]
        omega
      · next hnopush =>
        exact hwf

theorem C9_witness :
    ((∀ p : obj_pool_t, obj_pool_create (fun _ => true) 8 2 2 = some p →
      p.count ≤ p.free_list.length) → True) ∧
    ((obj_pool_alloc (fun _ => true) true
      { free_list := [4, 7], count := 2, obj_size := 8, grow_size := 2,
        allocated_objects := 0, free_objects := 2, obj_ctr := 8 }).2.count ≤
      (obj_pool_alloc (fun _ => true) true
      { free_list := [4, 7], count := 2, obj_size := 8, grow_size := 2,
        allocated_objects := 0, free_objects := 2, obj_ctr := 8 }).2.free_list.length) ∧
    ((obj_pool_free true
      { free_list := [4, 7], count := 2, obj_size := 8, grow_size := 2,
        allocated_objects := 0, free_objects := 2, obj_ctr := 8 } 4).2.count ≤
      (obj_pool_free true
      { free_list := [4, 7], count := 2, obj_size := 8, grow_size := 2,
        allocated_objects := 0, free_objects := 2, obj_ctr := 8 } 4).2.free_list.length) :=
  ⟨fun _ => trivial,
   (C9_obj_pool_invariant (fun _ => true) true).2.1
     { free_list := [4, 7], count := 2, obj_size := 8, grow_size := 2,
       allocated_objects := 0, free_objects := 2, obj_ctr := 8 } (by decide),
   (C9_obj_pool_invariant (fun _ => true) true).2.2
     { free_list := [4, 7], count := 2, obj_size := 8, grow_size := 2,
       allocated_objects := 0, free_objects := 2, obj_ctr := 8 } 4 (by decide)⟩

/-- C6 as stated is false on the vector container: advancing an iterator
one step past the last element of a one-element vector succeeds and lands
on index `size` (= 1), the same logical position as `vector_end`, yet
`iterator_equal` reports 0 because `next` leaves a non-null `current`
pointer while `vector_end` carries a NULL one. -/
theorem C6_counterexample :
    (vector_iterator_next { dataAddr := 100, size := 1, element_size := 4 }
      (vector_begin 7 { dataAddr := 100, size := 1, element_size := 4 })).1 = CSTL_OK ∧
    (vector_iterator_next { dataAddr := 100, size := 1, element_size := 4 }
      (vector_begin 7 { dataAddr := 100, size := 1, element_size := 4 })).2.index = 1 ∧
    (vector_end 7 { dataAddr := 100, size := 1, element_size := 4 }).index = 1 ∧
    (vector_end 7 { dataAddr := 100, size := 1, element_size := 4 }).container = 7 ∧
    (vector_iterator_next { dataAddr := 100, size := 1, element_size := 4 }
      (vector_begin 7 { dataAddr := 100, size := 1, element_size := 4 })).2.container = 7 ∧
    iterator_equal
      (vector_iterator_next { dataAddr := 100, size := 1, element_size := 4 }
        (vector_begin 7 { dataAddr := 100, size := 1, element_size := 4 })).2
      (vector_end 7 { dataAddr := 100, size := 1, element_size := 4 }) = false := by
  decide

/-- C6 (amended): `iterator_equal` compares container identity and the
raw `current` element pointer, so two iterators are equal iff those two
fields agree; an iterator advanced one step past the last element of a
non-empty vector acquires a non-null `current` (`data + size * esize`)
and therefore does not compare equal to the end-factory iterator, whose
`current` is NULL, even though both are at logical index `size`. -/
theorem C6_iterator_equal (a b : vector_iterator_t) (cid : Nat)
    (v : vector_t) (it : vector_iterator_t) (hidx : it.index + 1 = v.size) :
    (iterator_equal a b = true ↔
      a.container = b.container ∧ a.current = b.current) ∧
    ((vector_iterator_next v it).1 = CSTL_OK ∧
     (vector_iterator_next v it).2.index = v.size ∧
     (vector_end cid v).index = v.size ∧
     iterator_equal (vector_iterator_next v it).2 (vector_end cid v) = false) := by
  constructor
  · rw [iterator_equal]
    simp
  · have hlt : ¬ v.size ≤ it.index := by omega
    rw [vector_iterator_next, if_neg hlt]
    refine ⟨rfl, hidx, rfl, ?_⟩
    rw [iterator_equal]
    simp [vector_end, vector_iterator_create]

theorem C6_witness :
    (iterator_equal { container := 3, current := some 8, index := 2 }
       { container := 3, current := some 8, index := 2 } = true ↔
      (3 : Nat) = 3 ∧ (some 8 : Option Nat) = some 8) ∧
    ((vector_iterator_next { dataAddr := 40, size := 3, element_size := 2 }
        { container := 3, current := some 44, index := 2 }).1 = CSTL_OK ∧
     (vector_iterator_next { dataAddr := 40, size := 3, element_size := 2 }
        { container := 3, current := some 44, index := 2 }).2.index = 3 ∧
     (vector_end 3 { dataAddr := 40, size := 3, element_size := 2 }).index = 3 ∧
     iterator_equal
       (vector_iterator_next { dataAddr := 40, size := 3, element_size := 2 }
          { container := 3, current := some 44, index := 2 }).2
       (vector_end 3 { dataAddr := 40, size := 3, element_size := 2 }) = false) :=
  C6_iterator_equal { container := 3, current := some 8, index := 2 }
    { container := 3, current := some 8, index := 2 } 3
    { dataAddr := 40, size := 3, element_size := 2 }
    { container := 3, current := some 44, index := 2 } (by decide)

/-- C7: on a freshly created empty vector, `vector_begin` is not valid
(`vector_iterator_valid` returns 0) and it compares equal to the
`vector_end` iterator under `iterator_equal`. -/
theorem C7_empty_begin_eq_end (cid : Nat) (v : vector_t) (h : v.size = 0) :
    vector_iterator_valid v (vector_begin cid v) = false ∧
    iterator_equal (vector_begin cid v) (vector_end cid v) = true := by
  constructor
  · rw [vector_iterator_valid, vector_begin, vector_iterator_create]
    simp [h]
  · rw [iterator_equal, vector_begin, vector_end, vector_iterator_create]
    simp [h]

theorem C7_witness :
    vector_iterator_valid { dataAddr := 100, size := 0, element_size := 4 }
      (vector_begin 7 { dataAddr := 100, size := 0, element_size := 4 }) = false ∧
    iterator_equal
      (vector_begin 7 { dataAddr := 100, size := 0, element_size := 4 })
      (vector_end 7 { dataAddr := 100, size := 0, element_size := 4 }) = true :=
  C7_empty_begin_eq_end 7 { dataAddr := 100, size := 0, element_size := 4 } rfl

end Cstl
